import Mathlib

/-!
# The desktop-entry reader of `launcher/read_desktop_file.c`

A shallow embedding of the hand-written character-level parser and of the
loader `read_desktop_file`, followed by theorems about it.

## Modelling conventions

* A C `char` is an `Int`.  The file is the list of the `char` values its bytes
  convert to under `char c = fgetc(fp)` (plain `char` is signed, as on x86:
  byte `0xFF` is the character `-1`).  End-of-file is read as `-1` too, and it
  sets the stream's end-of-file indicator.
* A C string is the list of its characters, without the terminating NUL.
* The `FILE` of `struct df_t` is the three fields `fp` (the characters not
  yet read, a pushed-back character in front), `feof` (the end-of-file
  indicator) and `is_open` (the state of the handle: open or closed).
  `stderr` is the list `err` of diagnostics printed so far.
* `keyname` and `read_rest_of_line` write the terminating NUL one past their
  buffer when 64 and 256 characters were gathered, which C leaves undefined;
  the model goes on with the characters gathered.  Runs with keys of at most
  63 and values of at most 255 characters do not reach that write.
* Every loop of the source is a recursive function on a fuel argument that
  returns `none` when the fuel is exhausted, so that a loop of the source that
  does not terminate is a function that returns `none` for every fuel.
* `free` and the leak of an overwritten slot are not modelled.
-/

namespace Wm

/-- The four message texts passed to `error` in the source:
`"Expected key or group name"`, `"Expected '=' after key"`,
`"Does not have a 'Name=' field"`, `"Does not have a 'Exec=' field"`. -/
inductive Msg where
  | expected_key
  | expected_eq
  | no_name
  | no_exec
deriving DecidableEq, Repr

/-- One line written to `stderr`: by `error` (file name, line, message) or by
`perror(fname)`. -/
inductive Diag where
  | error (fname : List Int) (lineno : Nat) (msg : Msg)
  | perror (fname : List Int)
deriving DecidableEq, Repr

/-- The parser state `struct df_t`, with the stream and `stderr` made explicit.
The `FILE` behind `fp` is the unread input `fp`, its end-of-file indicator
`feof` and the state of the handle: `is_open` is `true` from `fopen` until an
`fclose` on it. -/
structure df_t where
  fp : List Int
  feof : Bool
  fname : List Int
  lineno : Nat
  err : List Diag
  is_open : Bool
deriving DecidableEq, Repr

/-- The characters of a string literal as C characters. -/
def cstr (s : String) : List Int := s.toList.map (fun ch => (ch.toNat : Int))

/-- The function `fgetc(D->fp)` converted to `char`: the next character, or `-1`
with the end-of-file indicator set. -/
def fgetc (D : df_t) : Int × df_t :=
  match D.fp with
  | [] => (-1, { D with feof := true })
  | c :: rest => (c, { D with fp := rest })

/-- The function `ungetc(c, D->fp)`: pushing back `EOF` (`-1`) fails and
changes nothing; any other character becomes the next one read and the
indicator of end-of-file is cleared. -/
def ungetc (c : Int) (D : df_t) : df_t :=
  if c = -1 then D else { D with fp := c :: D.fp, feof := false }

/-- The function `isspace` in the C locale: space, `\t`, `\n`, `\v`, `\f`, `\r`. -/
def isspace (c : Int) : Bool := c == 32 || (9 ≤ c && c ≤ 13)

/-- The function `isalnum` in the C locale. -/
def isalnum (c : Int) : Bool :=
  (48 ≤ c && c ≤ 57) || (65 ≤ c && c ≤ 90) || (97 ≤ c && c ≤ 122)

/-- The loop condition of `keyname` on the character: `isalnum(c)` or one of
`-`, `_`, `@`, `[`, `]`. -/
def iskeychar (c : Int) : Bool :=
  isalnum c || c == 45 || c == 95 || c == 64 || c == 91 || c == 93

/-- The function `strdup`: the characters up to the first NUL. -/
def strdup (s : List Int) : List Int := s.takeWhile (fun c => c != 0)

/-- The loop of `has_extension`, on `i + 1` and `j + 1` (both indices are
`>= 0` exactly when both arguments are positive). -/
def has_extension_loop (fname ext : List Int) : Nat → Nat → Int
  | i + 1, j + 1 =>
    if fname.getD i 0 ≠ ext.getD j 0 then 0 else has_extension_loop fname ext i j
  | _, _ => 1

/-- The function `has_extension(fname, ext)`. -/
def has_extension (fname ext : List Int) : Int :=
  has_extension_loop fname ext fname.length ext.length

mutual
/-- The function `next_char`. -/
def next_char : Nat → df_t → Option (Int × df_t)
  | 0, _ => none
  | n + 1, D =>
    let r := fgetc D
    let c := r.1
    let D1 := if c = 10 then { r.2 with lineno := r.2.lineno + 1 } else r.2
    let afterHash : Option (Int × df_t) :=
      if c = 35 then
        match skip_to_next_line n D1 with
        | none => none
        | some D2 => some (10, D2)
      else some (c, D1)
    match afterHash with
    | none => none
    | some (c2, D3) => if c2 = 92 then some (fgetc D3) else some (c2, D3)
/-- The function `skip_to_next_line`. -/
def skip_to_next_line : Nat → df_t → Option df_t
  | 0, _ => none
  | n + 1, D =>
    match next_char n D with
    | none => none
    | some (c, D1) => skip_to_next_line_loop n c D1
/-- The `while` loop of `skip_to_next_line`. -/
def skip_to_next_line_loop : Nat → Int → df_t → Option df_t
  | 0, _, _ => none
  | n + 1, c, D =>
    if c ≠ 10 ∧ D.feof = false then
      match next_char n D with
      | none => none
      | some (c1, D1) => skip_to_next_line_loop n c1 D1
    else some D
end

/-- The function `error`: one line on `stderr`, then `skip_to_next_line`. -/
def error (n : Nat) (D : df_t) (msg : Msg) : Option df_t :=
  skip_to_next_line n { D with err := D.err ++ [Diag.error D.fname D.lineno msg] }

/-- The two `while` loops of `skip_whitespace`. -/
def skip_whitespace_loop : Nat → Bool → Int → df_t → Option (Int × df_t)
  | 0, _, _, _ => none
  | n + 1, skip_newlines, c, D =>
    if (if skip_newlines then isspace c else (isspace c && c != 10)) then
      match next_char n D with
      | none => none
      | some (c1, D1) => skip_whitespace_loop n skip_newlines c1 D1
    else some (c, D)

/-- The function `skip_whitespace`. -/
def skip_whitespace (n : Nat) (D : df_t) (skip_newlines : Bool) : Option (Int × df_t) :=
  match n with
  | 0 => none
  | n + 1 =>
    match next_char n D with
    | none => none
    | some (c, D1) => skip_whitespace_loop n skip_newlines c D1

/-- The `while` loop of `keyname`; `key` is `key[0..i-1]`, and `sizeof(key)` is 64. -/
def keyname_loop : Nat → List Int → Int → df_t → Option (List Int × Int × df_t)
  | 0, _, _, _ => none
  | n + 1, key, c, D =>
    if key.length < 64 ∧ iskeychar c = true then
      match next_char n D with
      | none => none
      | some (c1, D1) => keyname_loop n (key ++ [c]) c1 D1
    else some (key, c, D)

/-- The function `keyname`: `none` is `NULL`.  When the loop stops at
`i = 64` the source writes the NUL one past the buffer; the model returns the
64 characters gathered. -/
def keyname (n : Nat) (D : df_t) (c : Int) : Option (Option (List Int) × df_t) :=
  match keyname_loop n [] c D with
  | none => none
  | some (key, c1, D1) =>
    let D2 := ungetc c1 D1
    if key.length > 0 then some (some (strdup key), D2) else some (none, D2)

/-- The `while` loop of `read_groupname`. -/
def read_groupname_loop : Nat → Int → df_t → Option df_t
  | 0, _, _ => none
  | n + 1, c, D =>
    if c ≠ 93 then
      match next_char n D with
      | none => none
      | some (c1, D1) => read_groupname_loop n c1 D1
    else some D

/-- The function `read_groupname`. -/
def read_groupname (n : Nat) (D : df_t) : Option df_t :=
  read_groupname_loop n 91 D

/-- The `while` loop of `read_rest_of_line`; `str` is `str[0..i-1]`, and
`sizeof(str)` is 256. -/
def read_rest_of_line_loop : Nat → List Int → Int → df_t → Option (List Int × df_t)
  | 0, _, _, _ => none
  | n + 1, str, c, D =>
    if str.length < 256 ∧ c ≠ 10 ∧ D.feof = false then
      let str1 := str ++ [c]
      if str1.length ≥ 256 then
        match skip_to_next_line n D with
        | none => none
        | some D1 => some (str1, D1)
      else
        match next_char n D with
        | none => none
        | some (c1, D1) => read_rest_of_line_loop n str1 c1 D1
    else some (str, D)

/-- The function `read_rest_of_line`.  When 256 characters were gathered the
source writes the NUL one past the buffer; the model returns the 256
characters (up to their first NUL). -/
def read_rest_of_line (n : Nat) (D : df_t) (c : Int) : Option (List Int × df_t) :=
  match read_rest_of_line_loop n [] c D with
  | none => none
  | some (str, D1) => some (strdup str, D1)

/-- The function `read_line`: the two out-parameters `*key` and `*val`
(`none` is `NULL`) and the state. -/
def read_line (n : Nat) (D : df_t) : Option (Option (List Int) × Option (List Int) × df_t) :=
  match skip_whitespace n D true with
  | none => none
  | some (c, D1) =>
    if c = 91 then
      match read_groupname n D1 with
      | none => none
      | some D2 => some (none, none, D2)
    else
      match keyname n D1 c with
      | none => none
      | some (none, D2) =>
        match error n D2 Msg.expected_key with
        | none => none
        | some D3 => some (none, none, D3)
      | some (some key, D2) =>
        match skip_whitespace n D2 false with
        | none => none
        | some (c1, D3) =>
          if c1 ≠ 61 then
            match error n D3 Msg.expected_eq with
            | none => none
            | some D4 => some (none, none, D4)
          else
            match skip_whitespace n D3 false with
            | none => none
            | some (c2, D4) =>
              match read_rest_of_line n D4 c2 with
              | none => none
              | some (val, D5) =>
                match skip_whitespace n D5 true with
                | none => none
                | some (c3, D6) => some (some key, some val, ungetc c3 D6)

/-- The three out-parameters `*app_name`, `*app_descr`, `*app_exec` of
`read_desktop_file`; `none` is a `NULL` pointer. -/
structure Slots where
  app_name : Option (List Int)
  app_descr : Option (List Int)
  app_exec : Option (List Int)
deriving DecidableEq, Repr

/-- The body of `if (key && value)` in `read_desktop_file`. -/
def adopt (key value : Option (List Int)) (s : Slots) : Slots :=
  match key, value with
  | some k, some v =>
    if k = cstr "Name" then { s with app_name := some v }
    else if k = cstr "Comment" then { s with app_descr := some v }
    else if k = cstr "Exec" then { s with app_exec := some v }
    else s
  | _, _ => s

/-- The loop `while (!feof(D.fp))` of `read_desktop_file`. -/
def read_desktop_file_loop : Nat → df_t → Slots → Option (df_t × Slots)
  | 0, _, _ => none
  | n + 1, D, s =>
    if D.feof = false then
      match read_line n D with
      | none => none
      | some (key, value, D1) => read_desktop_file_loop n D1 (adopt key value s)
    else some (D, s)

/-- What the caller of `read_desktop_file` observes: the three slots, what was
written to `stderr`, and whether the call leaves a `FILE` open: `false` on the
two early returns, which are taken before a `FILE` was opened, and the state
of the handle of `D.fp` on the return after the parse. -/
structure Outcome where
  slots : Slots
  err : List Diag
  fp_open : Bool
deriving DecidableEq, Repr

/-- The two checks after the loop of `read_desktop_file`. -/
def missing_fields (n : Nat) (D : df_t) (s : Slots) : Option df_t :=
  match (if s.app_name = none then error n D Msg.no_name else some D) with
  | none => none
  | some D1 => if s.app_exec = none then error n D1 Msg.no_exec else some D1

/-- The function `read_desktop_file`.  The file system is `fs`: `fs fname` is
the content of the file `fopen(fname, "r")` opens, `none` when it fails;
`s` is what the three out-parameters point to before the call.  `D0` is `D`
before `fopen`: no `FILE` yet, so its handle is not open; a successful
`fopen` gives `D.fp` an open handle on the content of the file, and every
return reports the handle of `D` as it is then. -/
def read_desktop_file (n : Nat) (fs : List Int → Option (List Int)) (fname : List Int)
    (s : Slots) : Option Outcome :=
  let D0 : df_t := ⟨[], false, fname, 1, [], false⟩
  if has_extension fname (cstr ".desktop") = 0 then some ⟨s, D0.err, D0.is_open⟩
  else
    match fs fname with
    | none => some ⟨s, D0.err ++ [Diag.perror fname], D0.is_open⟩
    | some content =>
      let D : df_t := { D0 with fp := content, is_open := true }
      let s1 : Slots := { s with app_name := none, app_exec := none }
      match read_desktop_file_loop n D s1 with
      | none => none
      | some (D1, s2) =>
        match missing_fields n D1 s2 with
        | none => none
        | some D2 => some ⟨s2, D2.err, D2.is_open⟩

/-! ## The file format of the specification -/

/-- The function `isprint` in the C locale. -/
def isprint (c : Int) : Bool := 32 ≤ c && c ≤ 126

/-- A line of a desktop file, as the specification lists them: a blank line
(whitespace only), a comment line `#text`, a group header `[text]`, and a
`Key=Value` line. -/
inductive Line where
  | blank (ws : List Int)
  | comment (text : List Int)
  | group (text : List Int)
  | kv (key value : List Int)
deriving DecidableEq, Repr

/-- The characters of a line, its newline included. -/
def Line.chars : Line → List Int
  | .blank ws => ws ++ [10]
  | .comment text => 35 :: text ++ [10]
  | .group text => 91 :: text ++ [93, 10]
  | .kv key value => key ++ 61 :: value ++ [10]

/-- The content of the file made of the given lines. -/
def content : List Line → List Int
  | [] => []
  | l :: ls => l.chars ++ content ls

/-- A key as the specification words it: a non-empty identifier of at most 63
characters that does not start with `[`. -/
def wf_key (k : List Int) : Bool :=
  !k.isEmpty && decide (k.length ≤ 63) && k.all iskeychar && (k.head? != some 91)

/-- A value as the specification words it: at most 255 printable characters,
none of them `#` or a backslash, the first one not whitespace. -/
def wf_value (v : List Int) : Bool :=
  decide (v.length ≤ 255) && v.all (fun c => isprint c && c != 35 && c != 92) &&
    (match v with
     | [] => true
     | c :: _ => !isspace c)

/-- A run of spaces and tabs. -/
def is_blank_run (w : List Int) : Bool := w.all (fun c => c == 32 || c == 9)

/-- A value of one `Key=Value` line read on its own: a C string (no NUL) of at
most 255 characters, none of them a newline, `#` or a backslash, the first one
not whitespace. -/
def wf_raw_value (v : List Int) : Bool :=
  decide (v.length ≤ 255) && v.all (fun c => c != 10 && c != 35 && c != 92 && c != 0) &&
    (match v with
     | [] => true
     | c :: _ => !isspace c)

/-- Blank lines and comment lines. -/
def Line.is_gap : Line → Bool
  | .blank _ => true
  | .comment _ => true
  | _ => false

/-- The lines as the specification words them: a comment text has no backslash
(and no newline), a group-header text is any text of one line without `]`. -/
def Line.wf_spec : Line → Bool
  | .blank ws => ws.all (fun c => isspace c && c != 10)
  | .comment text => text.all (fun c => c != 10 && c != 92)
  | .group text => text.all (fun c => c != 10 && c != 93)
  | .kv key value => wf_key key && wf_value value

/-- Every `#` of the text is escaped: it follows a backslash that is not
itself the character escaped by the backslash before it. -/
def hash_escaped : List Int → Bool
  | [] => true
  | [c] => c != 35
  | c :: d :: t => if c = 92 then hash_escaped t else c != 35 && hash_escaped (d :: t)

/-- The lines the parser reads as intended: as `Line.wf_spec`, and every `#` in
a group-header text is escaped. -/
def Line.wf : Line → Bool
  | .group text => text.all (fun c => c != 10 && c != 93) && hash_escaped text
  | l => l.wf_spec

/-- The last line that is neither blank nor a comment is a `Key=Value` line
(and there is such a line). -/
def ends_with_pair : List Line → Bool
  | [] => false
  | .kv _ _ :: ls => ls.all Line.is_gap || ends_with_pair ls
  | _ :: ls => ends_with_pair ls

/-- The value of the last `key=` line among the lines, `none` when there is none. -/
def last_value (key : List Int) : List Line → Option (List Int)
  | [] => none
  | .kv k v :: ls =>
    match last_value key ls with
    | some w => some w
    | none => if k = key then some v else none
  | _ :: ls => last_value key ls

/-- The slots after the pairs of the lines were adopted in order. -/
def adopt_lines (s : Slots) : List Line → Slots
  | [] => s
  | .kv k v :: ls => adopt_lines (adopt (some k) (some v) s) ls
  | _ :: ls => adopt_lines s ls

/-- A stretch of input that `skip_whitespace(D, 1)` reads over: whitespace
characters and whole comments. -/
inductive Gap : List Int → Prop where
  | nil : Gap []
  | space (c : Int) (l : List Int) : isspace c = true → Gap l → Gap (c :: l)
  | comment (T l : List Int) : 10 ∉ T → Gap l → Gap (35 :: T ++ 10 :: l)

/-- What a call that only reads leaves alone: the file name and `stderr`; the
unread input does not grow and the line counter does not decrease. -/
def Keep (D D' : df_t) : Prop :=
  D'.fname = D.fname ∧ D'.err = D.err ∧ D'.fp.length ≤ D.fp.length ∧ D.lineno ≤ D'.lineno

/-- Progress of a call that reads at least once: the unread input got shorter,
or the stream is at end-of-file with the indicator set. -/
def Advance (D D' : df_t) : Prop :=
  D'.fp.length < D.fp.length ∨ (D'.feof = true ∧ D'.fp = [])

/-- The stream invariant: when the end-of-file indicator is set, nothing is
left to read. -/
def Inv (D : df_t) : Prop := D.feof = true → D.fp = []

/-- The diagnostic is a line of `error` with the message `m`. -/
def has_msg (m : Msg) : Diag → Bool
  | .error _ _ m' => m' == m
  | .perror _ => false

/-- The diagnostic is one of the two syntax errors of `read_line`. -/
def is_parse_error (d : Diag) : Bool := has_msg Msg.expected_key d || has_msg Msg.expected_eq d

/-- What every step of the parse guarantees: the stream invariant is kept, the
file name is kept, the handle is left as it is, and `stderr` only grows, by
syntax errors. -/
def Ext (D D' : df_t) : Prop :=
  (Inv D → Inv D') ∧ D'.fname = D.fname ∧ D'.is_open = D.is_open ∧
    ∃ es, D'.err = D.err ++ es ∧ ∀ d ∈ es, is_parse_error d = true

/-- The text `E` in front of `R` ends a line for `next_char`: with fuel `n0` or
more, `next_char` reads exactly `E` and returns a newline. -/
def EndsLine (E R : List Int) (n0 : Nat) : Prop :=
  ∀ (k : Nat) (fn : List Int) (ln : Nat) (er : List Diag) (op : Bool), n0 ≤ k →
    ∃ ln', next_char k ⟨E ++ R, false, fn, ln, er, op⟩ = some (10, ⟨R, false, fn, ln', er, op⟩)

end Wm


namespace Wm

/-! ## One step of the character stream -/

theorem fgetc_cons (c : Int) (R : List Int) (e : Bool) (fn : List Int) (ln : Nat)
    (er : List Diag) (op : Bool) : fgetc ⟨c :: R, e, fn, ln, er, op⟩ = (c, ⟨R, e, fn, ln, er, op⟩) := rfl

theorem fgetc_nil (e : Bool) (fn : List Int) (ln : Nat) (er : List Diag) (op : Bool) :
    fgetc ⟨[], e, fn, ln, er, op⟩ = (-1, ⟨[], true, fn, ln, er, op⟩) := rfl

theorem next_char_zero (D : df_t) : next_char 0 D = none := by
  simp [next_char]

theorem next_char_eof (n : Nat) (e : Bool) (fn : List Int) (ln : Nat) (er : List Diag) (op : Bool) :
    next_char (n + 1) ⟨[], e, fn, ln, er, op⟩ = some (-1, ⟨[], true, fn, ln, er, op⟩) := by
  simp [next_char, fgetc]

theorem next_char_simple (n : Nat) (c : Int) (R : List Int) (e : Bool) (fn : List Int)
    (ln : Nat) (er : List Diag) (op : Bool) (h35 : c ≠ 35) (h92 : c ≠ 92) :
    next_char (n + 1) ⟨c :: R, e, fn, ln, er, op⟩
      = some (c, ⟨R, e, fn, if c = 10 then ln + 1 else ln, er, op⟩) := by
  by_cases h10 : c = 10
  · subst h10; simp [next_char, fgetc]
  · simp [next_char, fgetc, h35, h92, h10]

theorem next_char_plain (n : Nat) (c : Int) (R : List Int) (e : Bool) (fn : List Int)
    (ln : Nat) (er : List Diag) (op : Bool) (h10 : c ≠ 10) (h35 : c ≠ 35) (h92 : c ≠ 92) :
    next_char (n + 1) ⟨c :: R, e, fn, ln, er, op⟩ = some (c, ⟨R, e, fn, ln, er, op⟩) := by
  rw [next_char_simple n c R e fn ln er op h35 h92, if_neg h10]

theorem next_char_newline (n : Nat) (R : List Int) (e : Bool) (fn : List Int)
    (ln : Nat) (er : List Diag) (op : Bool) :
    next_char (n + 1) ⟨10 :: R, e, fn, ln, er, op⟩ = some (10, ⟨R, e, fn, ln + 1, er, op⟩) := by
  rw [next_char_simple n 10 R e fn ln er op (by decide) (by decide), if_pos rfl]

theorem next_char_escape (n : Nat) (b : Int) (R : List Int) (e : Bool) (fn : List Int)
    (ln : Nat) (er : List Diag) (op : Bool) :
    next_char (n + 1) ⟨92 :: b :: R, e, fn, ln, er, op⟩ = some (b, ⟨R, e, fn, ln, er, op⟩) := by
  simp [next_char, fgetc]

theorem next_char_escape_eof (n : Nat) (e : Bool) (fn : List Int)
    (ln : Nat) (er : List Diag) (op : Bool) :
    next_char (n + 1) ⟨[92], e, fn, ln, er, op⟩ = some (-1, ⟨[], true, fn, ln, er, op⟩) := by
  simp [next_char, fgetc]

theorem next_char_hash (n : Nat) (R : List Int) (e : Bool) (fn : List Int)
    (ln : Nat) (er : List Diag) (op : Bool) :
    next_char (n + 1) ⟨35 :: R, e, fn, ln, er, op⟩
      = (skip_to_next_line n ⟨R, e, fn, ln, er, op⟩).map (fun D => ((10 : Int), D)) := by
  cases h : skip_to_next_line n ⟨R, e, fn, ln, er, op⟩ <;> simp [next_char, fgetc, h]

theorem skip_to_next_line_succ (n : Nat) (D : df_t) :
    skip_to_next_line (n + 1) D
      = (next_char n D).bind (fun r => skip_to_next_line_loop n r.1 r.2) := by
  rw [skip_to_next_line]
  cases next_char n D <;> rfl

theorem skip_to_next_line_loop_succ (n : Nat) (c : Int) (D : df_t) :
    skip_to_next_line_loop (n + 1) c D
      = if c ≠ 10 ∧ D.feof = false then
          (next_char n D).bind (fun r => skip_to_next_line_loop n r.1 r.2)
        else some D := by
  rw [skip_to_next_line_loop]
  cases next_char n D <;> rfl

theorem skip_to_next_line_loop_stop (n : Nat) (D : df_t) :
    skip_to_next_line_loop (n + 1) 10 D = some D := by
  simp [skip_to_next_line_loop_succ]

theorem skip_to_next_line_loop_feof (n : Nat) (c : Int) (D : df_t) (h : D.feof = true) :
    skip_to_next_line_loop (n + 1) c D = some D := by
  simp [skip_to_next_line_loop_succ, h]

/-! ## Every call on the character stream returns -/

theorem Keep.keep_refl (D : df_t) : Keep D D := ⟨rfl, rfl, le_refl _, le_refl _⟩

theorem Keep.keep_trans {D1 D2 D3 : df_t} (h1 : Keep D1 D2) (h2 : Keep D2 D3) : Keep D1 D3 :=
  ⟨h2.1.trans h1.1, h2.2.1.trans h1.2.1, h2.2.2.1.trans h1.2.2.1, h1.2.2.2.trans h2.2.2.2⟩

theorem stream_total (L : Nat) : ∀ D : df_t, D.fp.length = L →
    (∀ n, 2 * D.fp.length + 1 ≤ n → ∃ c D', next_char n D = some (c, D') ∧ Keep D D' ∧
        (D'.fp.length < D.fp.length ∨ (c = -1 ∧ D'.feof = true ∧ D'.fp = []))) ∧
    (∀ n c, 2 * D.fp.length + 2 ≤ n →
        ∃ D', skip_to_next_line_loop n c D = some D' ∧ Keep D D') ∧
    (∀ n, 2 * D.fp.length + 2 ≤ n →
        ∃ D', skip_to_next_line n D = some D' ∧ Keep D D' ∧ Advance D D') := by
  induction L using Nat.strong_induction_on with
  | _ L IH =>
    intro D hL
    have hA : ∀ n, 2 * D.fp.length + 1 ≤ n → ∃ c D', next_char n D = some (c, D') ∧
        Keep D D' ∧ (D'.fp.length < D.fp.length ∨ (c = -1 ∧ D'.feof = true ∧ D'.fp = [])) := by
      intro n hn
      obtain ⟨k, rfl⟩ : ∃ k, n = k + 1 := ⟨n - 1, by omega⟩
      obtain ⟨fp, e, fn, ln, er, op⟩ := D
      cases fp with
      | nil =>
        exact ⟨-1, _, next_char_eof k e fn ln er op, ⟨rfl, rfl, le_refl _, le_refl _⟩,
          Or.inr ⟨rfl, rfl, rfl⟩⟩
      | cons c R =>
        simp only [List.length_cons] at hn hL
        by_cases h35 : c = 35
        · subst h35
          obtain ⟨D2, h2, hk, _⟩ := (IH R.length (by omega) ⟨R, e, fn, ln, er, op⟩ rfl).2.2 k
            (by simp only []; omega)
          refine ⟨10, D2, ?_, ?_, Or.inl ?_⟩
          · rw [next_char_hash, h2]; rfl
          · exact ⟨hk.1, hk.2.1, by have := hk.2.2.1; simp only [List.length_cons] at *; omega,
              hk.2.2.2⟩
          · have := hk.2.2.1; simp only [List.length_cons] at *; omega
        · by_cases h92 : c = 92
          · subst h92
            cases R with
            | nil =>
              exact ⟨-1, _, next_char_escape_eof k e fn ln er op,
                ⟨rfl, rfl, by simp, le_refl _⟩, Or.inl (by simp)⟩
            | cons b R' =>
              exact ⟨b, _, next_char_escape k b R' e fn ln er op,
                ⟨rfl, rfl, by simp only [List.length_cons]; omega, le_refl _⟩,
                Or.inl (by simp only [List.length_cons]; omega)⟩
          · refine ⟨c, _, next_char_simple k c R e fn ln er op h35 h92,
              ⟨rfl, rfl, by simp, ?_⟩, Or.inl (by simp)⟩
            simp only []; split <;> omega
    have hB : ∀ n c, 2 * D.fp.length + 2 ≤ n →
        ∃ D', skip_to_next_line_loop n c D = some D' ∧ Keep D D' := by
      intro n c hn
      obtain ⟨k, rfl⟩ : ∃ k, n = k + 1 := ⟨n - 1, by omega⟩
      rw [skip_to_next_line_loop_succ]
      by_cases hc : c ≠ 10 ∧ D.feof = false
      · rw [if_pos hc]
        obtain ⟨c1, D1, h1, hk1, hp⟩ := hA k (by omega)
        rw [h1, Option.bind]
        rcases hp with hlt | ⟨_, hf, _⟩
        · obtain ⟨D2, h2, hk2⟩ := (IH D1.fp.length (by omega) D1 rfl).2.1 k c1 (by omega)
          exact ⟨D2, h2, hk1.keep_trans hk2⟩
        · obtain ⟨j, rfl⟩ : ∃ j, k = j + 1 := ⟨k - 1, by omega⟩
          exact ⟨D1, skip_to_next_line_loop_feof j c1 D1 hf, hk1⟩
      · rw [if_neg hc]
        exact ⟨D, rfl, Keep.keep_refl D⟩
    refine ⟨hA, hB, ?_⟩
    intro n hn
    obtain ⟨k, rfl⟩ : ∃ k, n = k + 1 := ⟨n - 1, by omega⟩
    rw [skip_to_next_line_succ]
    obtain ⟨c1, D1, h1, hk1, hp⟩ := hA k (by omega)
    rw [h1, Option.bind]
    rcases hp with hlt | ⟨_, hf, hnil⟩
    · obtain ⟨D2, h2, hk2⟩ := (IH D1.fp.length (by omega) D1 rfl).2.1 k c1 (by omega)
      exact ⟨D2, h2, hk1.keep_trans hk2, Or.inl (by have := hk2.2.2.1; omega)⟩
    · obtain ⟨j, rfl⟩ : ∃ j, k = j + 1 := ⟨k - 1, by omega⟩
      exact ⟨D1, skip_to_next_line_loop_feof j c1 D1 hf, hk1, Or.inr ⟨hf, hnil⟩⟩

theorem next_char_total (D : df_t) (n : Nat) (hn : 2 * D.fp.length + 1 ≤ n) :
    ∃ c D', next_char n D = some (c, D') ∧ Keep D D' ∧
      (D'.fp.length < D.fp.length ∨ (c = -1 ∧ D'.feof = true ∧ D'.fp = [])) :=
  (stream_total D.fp.length D rfl).1 n hn

theorem skip_to_next_line_eq_loop (n : Nat) (c : Int) (D : df_t) (hc : c ≠ 10)
    (hf : D.feof = false) : skip_to_next_line n D = skip_to_next_line_loop n c D := by
  cases n with
  | zero => simp [skip_to_next_line, skip_to_next_line_loop]
  | succ k => rw [skip_to_next_line_succ, skip_to_next_line_loop_succ, if_pos ⟨hc, hf⟩]

/-- The loop of `skip_to_next_line` inside a line: the rest `T` of the line and
its newline are read, whatever `T` holds. -/
theorem skip_to_next_line_loop_line (m : Nat) : ∀ (T R : List Int), T.length ≤ m → 10 ∉ T →
    ∀ (n : Nat) (c : Int) (fn : List Int) (ln : Nat) (er : List Diag) (op : Bool), c ≠ 10 →
      2 * T.length + 2 ≤ n →
      ∃ ln', skip_to_next_line_loop n c ⟨T ++ 10 :: R, false, fn, ln, er, op⟩
          = some ⟨R, false, fn, ln', er, op⟩ ∧ ln ≤ ln' ∧ ln' ≤ ln + 1 := by
  induction m using Nat.strong_induction_on with
  | _ m IH =>
    intro T R hlen h10 n c fn ln er op hc hn
    obtain ⟨j, rfl⟩ : ∃ j, n = j + 2 := ⟨n - 2, by omega⟩
    rw [skip_to_next_line_loop_succ, if_pos ⟨hc, rfl⟩]
    cases T with
    | nil =>
      refine ⟨ln + 1, ?_, by omega, le_refl _⟩
      rw [List.nil_append, next_char_newline, Option.bind]
      exact skip_to_next_line_loop_stop j _
    | cons t T' =>
      have ht : t ≠ 10 := fun h => h10 (by simp [h])
      have h10' : 10 ∉ T' := fun h => h10 (List.mem_cons_of_mem _ h)
      simp only [List.length_cons] at hlen hn
      rw [List.cons_append]
      by_cases h35 : t = 35
      · subst h35
        obtain ⟨ln', h, hl⟩ := IH T'.length (by omega) T' R (le_refl _) h10' j 0 fn ln er op
          (by decide) (by omega)
        refine ⟨ln', ?_, hl⟩
        rw [next_char_hash, skip_to_next_line_eq_loop j 0 _ (by decide) rfl, h]
        exact skip_to_next_line_loop_stop j _
      · by_cases h92 : t = 92
        · subst h92
          cases T' with
          | nil =>
            refine ⟨ln, ?_, le_refl _, by omega⟩
            rw [List.nil_append, next_char_escape, Option.bind]
            exact skip_to_next_line_loop_stop j _
          | cons b T'' =>
            have hb : b ≠ 10 := fun h => h10' (by simp [h])
            have h10'' : 10 ∉ T'' := fun h => h10' (List.mem_cons_of_mem _ h)
            simp only [List.length_cons] at hlen hn
            obtain ⟨ln', h, hl⟩ := IH T''.length (by omega) T'' R (le_refl _) h10'' (j + 1) b
              fn ln er op hb (by omega)
            refine ⟨ln', ?_, hl⟩
            rw [List.cons_append, next_char_escape, Option.bind]
            exact h
        · obtain ⟨ln', h, hl⟩ := IH T'.length (by omega) T' R (le_refl _) h10' (j + 1) t
            fn ln er op ht (by omega)
          refine ⟨ln', ?_, hl⟩
          rw [next_char_plain j t _ false fn ln er op ht h35 h92, Option.bind]
          exact h

/-- The loop of `skip_to_next_line` inside a last line that has no newline:
the rest of the file is read and the end-of-file indicator is set. -/
theorem skip_to_next_line_loop_last (m : Nat) : ∀ (T : List Int), T.length ≤ m → 10 ∉ T →
    ∀ (n : Nat) (c : Int) (fn : List Int) (ln : Nat) (er : List Diag) (op : Bool), c ≠ 10 →
      2 * T.length + 2 ≤ n →
      skip_to_next_line_loop n c ⟨T, false, fn, ln, er, op⟩ = some ⟨[], true, fn, ln, er, op⟩ := by
  induction m using Nat.strong_induction_on with
  | _ m IH =>
    intro T hlen h10 n c fn ln er op hc hn
    obtain ⟨j, rfl⟩ : ∃ j, n = j + 2 := ⟨n - 2, by omega⟩
    rw [skip_to_next_line_loop_succ, if_pos ⟨hc, rfl⟩]
    cases T with
    | nil =>
      rw [next_char_eof, Option.bind]
      exact skip_to_next_line_loop_feof j _ _ rfl
    | cons t T' =>
      have ht : t ≠ 10 := fun h => h10 (by simp [h])
      have h10' : 10 ∉ T' := fun h => h10 (List.mem_cons_of_mem _ h)
      simp only [List.length_cons] at hlen hn
      by_cases h35 : t = 35
      · subst h35
        have h := IH T'.length (by omega) T' (le_refl _) h10' j 0 fn ln er op (by decide) (by omega)
        rw [next_char_hash, skip_to_next_line_eq_loop j 0 _ (by decide) rfl, h]
        exact skip_to_next_line_loop_stop j _
      · by_cases h92 : t = 92
        · subst h92
          cases T' with
          | nil =>
            rw [next_char_escape_eof, Option.bind]
            exact skip_to_next_line_loop_feof j _ _ rfl
          | cons b T'' =>
            have hb : b ≠ 10 := fun h => h10' (by simp [h])
            have h10'' : 10 ∉ T'' := fun h => h10' (List.mem_cons_of_mem _ h)
            simp only [List.length_cons] at hlen hn
            rw [next_char_escape, Option.bind]
            exact IH T''.length (by omega) T'' (le_refl _) h10'' (j + 1) b fn ln er op hb (by omega)
        · rw [next_char_plain j t _ false fn ln er op ht h35 h92, Option.bind]
          exact IH T'.length (by omega) T' (le_refl _) h10' (j + 1) t fn ln er op ht (by omega)

/-- C9: on a backslash followed by a character `b` and the input `R`,
`next_char` returns `b` itself (also when `b` is `#`, a backslash or a newline),
leaves exactly `R` unread and leaves the line counter, the end-of-file
indicator and `stderr` as they were. -/
theorem next_char_escape_verbatim (n : Nat) (b : Int) (R : List Int) (e : Bool)
    (fn : List Int) (ln : Nat) (er : List Diag) (op : Bool) :
    next_char (n + 1) ⟨92 :: b :: R, e, fn, ln, er, op⟩ = some (b, ⟨R, e, fn, ln, er, op⟩) := by
  simp [next_char, fgetc]

/-- C10: on a comment `#T` closed by a newline and followed by `R`, `next_char`
returns a newline and leaves exactly `R` unread, the same character and the same
unread input as on a blank line followed by `R`; on a comment `#T` that
end-of-file closes it returns a newline and leaves the input empty. -/
theorem next_char_comment_like_blank (T R : List Int) (h10 : 10 ∉ T) (n : Nat)
    (hn : 2 * T.length + 4 ≤ n) (fn : List Int) (ln : Nat) (er : List Diag) (op : Bool) :
    (∃ ln', next_char n ⟨35 :: T ++ 10 :: R, false, fn, ln, er, op⟩
        = some (10, ⟨R, false, fn, ln', er, op⟩)) ∧
    next_char n ⟨10 :: R, false, fn, ln, er, op⟩ = some (10, ⟨R, false, fn, ln + 1, er, op⟩) ∧
    next_char n ⟨35 :: T, false, fn, ln, er, op⟩ = some (10, ⟨[], true, fn, ln, er, op⟩) := by
  obtain ⟨j, rfl⟩ : ∃ j, n = j + 1 := ⟨n - 1, by omega⟩
  refine ⟨?_, next_char_newline _ _ _ _ _ _ _, ?_⟩
  · obtain ⟨ln', h, _⟩ := skip_to_next_line_loop_line T.length T R (le_refl _) h10 j 0 fn ln er op
      (by decide) (by omega)
    refine ⟨ln', ?_⟩
    rw [List.cons_append, next_char_hash, skip_to_next_line_eq_loop j 0 _ (by decide) rfl, h]
    rfl
  · have h := skip_to_next_line_loop_last T.length T (le_refl _) h10 j 0 fn ln er op
      (by decide) (by omega)
    rw [next_char_hash, skip_to_next_line_eq_loop j 0 _ (by decide) rfl, h]
    rfl

theorem next_char_comment_like_blank_witness :
    (∃ ln', next_char 10 ⟨35 :: [97, 35, 92] ++ 10 :: [98], false, [], 1, [], true⟩
        = some (10, ⟨[98], false, [], ln', [], true⟩)) ∧
    next_char 10 ⟨10 :: [98], false, [], 1, [], true⟩ = some (10, ⟨[98], false, [], 1 + 1, [], true⟩) ∧
    next_char 10 ⟨35 :: [97, 35, 92], false, [], 1, [], true⟩ = some (10, ⟨[], true, [], 1, [], true⟩) :=
  next_char_comment_like_blank [97, 35, 92] [98] (by decide) 10 (by decide) [] 1 [] true

/-! ## Whitespace -/

theorem skip_whitespace_loop_succ (n : Nat) (sn : Bool) (c : Int) (D : df_t) :
    skip_whitespace_loop (n + 1) sn c D
      = if (if sn then isspace c else (isspace c && c != 10)) then
          (next_char n D).bind (fun r => skip_whitespace_loop n sn r.1 r.2)
        else some (c, D) := by
  rw [skip_whitespace_loop]
  cases next_char n D <;> rfl

theorem skip_whitespace_succ (n : Nat) (sn : Bool) (D : df_t) :
    skip_whitespace (n + 1) D sn
      = (next_char n D).bind (fun r => skip_whitespace_loop n sn r.1 r.2) := by
  rw [skip_whitespace]
  cases next_char n D <;> rfl

theorem skip_whitespace_eq_loop (n : Nat) (sn : Bool) (D : df_t) :
    skip_whitespace n D sn = skip_whitespace_loop n sn 32 D := by
  cases n with
  | zero => simp [skip_whitespace, skip_whitespace_loop]
  | succ k =>
    rw [skip_whitespace_succ, skip_whitespace_loop_succ, if_pos]
    cases sn <;> decide

theorem skip_whitespace_loop_stop (n : Nat) (sn : Bool) (c : Int) (D : df_t)
    (h : isspace c = false) : skip_whitespace_loop (n + 1) sn c D = some (c, D) := by
  rw [skip_whitespace_loop_succ, if_neg]
  cases sn <;> simp [h]

theorem skip_whitespace_loop_stop_newline (n : Nat) (D : df_t) :
    skip_whitespace_loop (n + 1) false 10 D = some (10, D) := by
  rw [skip_whitespace_loop_succ, if_neg]
  decide

theorem isspace_ne (c : Int) (h : isspace c = true) : c ≠ 35 ∧ c ≠ 92 ∧ c ≠ -1 ∧ c ≠ 0 := by
  simp only [isspace, Bool.or_eq_true, beq_iff_eq, Bool.and_eq_true, decide_eq_true_eq] at h
  omega

theorem skip_whitespace_loop_total (L : Nat) : ∀ (D : df_t), D.fp.length ≤ L →
    ∀ (n : Nat) (sn : Bool) (c : Int), 2 * D.fp.length + 2 ≤ n →
      ∃ c' D', skip_whitespace_loop n sn c D = some (c', D') ∧ Keep D D' := by
  induction L with
  | zero =>
    intro D hL n sn c hn
    obtain ⟨j, rfl⟩ : ∃ j, n = j + 2 := ⟨n - 2, by omega⟩
    rw [skip_whitespace_loop_succ]
    by_cases hcond : (if sn then isspace c else (isspace c && c != 10)) = true
    · rw [if_pos hcond]
      obtain ⟨c1, D1, h1, hk1, hp⟩ := next_char_total D (j + 1) (by omega)
      rw [h1, Option.bind]
      rcases hp with hlt | ⟨hc, _, _⟩
      · omega
      · subst hc
        exact ⟨_, _, skip_whitespace_loop_stop j sn (-1) D1 (by decide), hk1⟩
    · rw [if_neg hcond]
      exact ⟨c, D, rfl, Keep.keep_refl D⟩
  | succ L IH =>
    intro D hL n sn c hn
    obtain ⟨j, rfl⟩ : ∃ j, n = j + 2 := ⟨n - 2, by omega⟩
    rw [skip_whitespace_loop_succ]
    by_cases hcond : (if sn then isspace c else (isspace c && c != 10)) = true
    · rw [if_pos hcond]
      obtain ⟨c1, D1, h1, hk1, hp⟩ := next_char_total D (j + 1) (by omega)
      rw [h1, Option.bind]
      rcases hp with hlt | ⟨hc, _, _⟩
      · obtain ⟨c2, D2, h2, hk2⟩ := IH D1 (by omega) (j + 1) sn c1 (by omega)
        exact ⟨c2, D2, h2, hk1.keep_trans hk2⟩
      · subst hc
        exact ⟨_, _, skip_whitespace_loop_stop j sn (-1) D1 (by decide), hk1⟩
    · rw [if_neg hcond]
      exact ⟨c, D, rfl, Keep.keep_refl D⟩

theorem skip_whitespace_total (D : df_t) (n : Nat) (sn : Bool) (hn : 2 * D.fp.length + 2 ≤ n) :
    ∃ c D', skip_whitespace n D sn = some (c, D') ∧ Keep D D' := by
  rw [skip_whitespace_eq_loop]
  exact skip_whitespace_loop_total D.fp.length D (le_refl _) n sn 32 hn

/-- Skipping spaces and tabs: `skip_whitespace(D, 0)` reads over the whitespace
`w` of one line and returns the character after it. -/
theorem skip_whitespace_loop_inline (w : List Int) : ∀ (n : Nat) (c0 c : Int) (R : List Int)
    (fn : List Int) (ln : Nat) (er : List Diag) (op : Bool),
    (∀ x ∈ w, isspace x = true ∧ x ≠ 10) → isspace c0 = true → c0 ≠ 10 →
    (c = 10 ∨ isspace c = false) → c ≠ 35 → c ≠ 92 → w.length + 2 ≤ n →
    skip_whitespace_loop n false c0 ⟨w ++ c :: R, false, fn, ln, er, op⟩
      = some (c, ⟨R, false, fn, if c = 10 then ln + 1 else ln, er, op⟩) := by
  induction w with
  | nil =>
    intro n c0 c R fn ln er op _ h0 h0' hc h35 h92 hn
    obtain ⟨j, rfl⟩ : ∃ j, n = j + 2 := ⟨n - 2, by omega⟩
    rw [skip_whitespace_loop_succ, if_pos (by simp [h0, h0']), List.nil_append,
      next_char_simple j c R false fn ln er op h35 h92, Option.bind]
    rcases hc with rfl | hc
    · exact skip_whitespace_loop_stop_newline j _
    · exact skip_whitespace_loop_stop j false c _ hc
  | cons x w IH =>
    intro n c0 c R fn ln er op hw h0 h0' hc h35 h92 hn
    simp only [List.length_cons] at hn
    obtain ⟨j, rfl⟩ : ∃ j, n = j + 2 := ⟨n - 2, by omega⟩
    have hx := hw x (List.mem_cons_self _ _)
    have hx' := isspace_ne x hx.1
    rw [skip_whitespace_loop_succ, if_pos (by simp [h0, h0']), List.cons_append,
      next_char_plain _ x _ false fn ln er op hx.2 hx'.1 hx'.2.1, Option.bind]
    exact IH (j + 1) x c R fn ln er op (fun y hy => hw y (List.mem_cons_of_mem _ hy)) hx.1 hx.2
      hc h35 h92 (by omega)

/-- Skipping whitespace and comments: `skip_whitespace(D, 1)` reads over the
stretch `G` and returns the character `c` after it, or reaches end-of-file. -/
theorem skip_whitespace_loop_gap {G : List Int} (hG : Gap G) : ∀ (n : Nat) (c0 : Int)
    (fn : List Int) (ln : Nat) (er : List Diag) (op : Bool), isspace c0 = true → 2 * G.length + 3 ≤ n →
    (∀ (c : Int) (R : List Int), isspace c = false → c ≠ 35 → c ≠ 92 →
      ∃ ln', skip_whitespace_loop n true c0 ⟨G ++ c :: R, false, fn, ln, er, op⟩
        = some (c, ⟨R, false, fn, ln', er, op⟩)) ∧
    (∃ ln', skip_whitespace_loop n true c0 ⟨G, false, fn, ln, er, op⟩
        = some (-1, ⟨[], true, fn, ln', er, op⟩)) := by
  induction hG with
  | nil =>
    intro n c0 fn ln er op h0 hn
    obtain ⟨j, rfl⟩ : ∃ j, n = j + 2 := ⟨n - 2, by omega⟩
    constructor
    · intro c R hc h35 h92
      have h10 : c ≠ 10 := fun h => by rw [h] at hc; exact absurd hc (by decide)
      refine ⟨ln, ?_⟩
      rw [skip_whitespace_loop_succ, if_pos (by simp [h0]), List.nil_append,
        next_char_plain j c R false fn ln er op h10 h35 h92, Option.bind]
      exact skip_whitespace_loop_stop j true c _ hc
    · refine ⟨ln, ?_⟩
      rw [skip_whitespace_loop_succ, if_pos (by simp [h0]), next_char_eof, Option.bind]
      exact skip_whitespace_loop_stop j true (-1) _ (by decide)
  | space x l hx _ IH =>
    intro n c0 fn ln er op h0 hn
    obtain ⟨j, rfl⟩ : ∃ j, n = j + 2 := ⟨n - 2, by omega⟩
    simp only [List.length_cons] at hn
    have hx' := isspace_ne x hx
    obtain ⟨ihA, ihB⟩ := IH (j + 1) x fn (if x = 10 then ln + 1 else ln) er op hx (by omega)
    constructor
    · intro c R hc h35 h92
      obtain ⟨ln', h⟩ := ihA c R hc h35 h92
      refine ⟨ln', ?_⟩
      rw [skip_whitespace_loop_succ, if_pos (by simp [h0]), List.cons_append,
        next_char_simple _ x _ false fn ln er op hx'.1 hx'.2.1, Option.bind]
      exact h
    · obtain ⟨ln', h⟩ := ihB
      refine ⟨ln', ?_⟩
      rw [skip_whitespace_loop_succ, if_pos (by simp [h0]),
        next_char_simple _ x _ false fn ln er op hx'.1 hx'.2.1, Option.bind]
      exact h
  | comment T l hT _ IH =>
    intro n c0 fn ln er op h0 hn
    obtain ⟨j, rfl⟩ : ∃ j, n = j + 2 := ⟨n - 2, by omega⟩
    simp only [List.length_cons, List.length_append] at hn
    constructor
    · intro c R hc h35 h92
      obtain ⟨ln1, h1, _⟩ := skip_to_next_line_loop_line T.length T (l ++ c :: R) (le_refl _) hT
        j 0 fn ln er op (by decide) (by omega)
      obtain ⟨ln', h⟩ := (IH (j + 1) 10 fn ln1 er op (by decide) (by omega)).1 c R hc h35 h92
      refine ⟨ln', ?_⟩
      rw [skip_whitespace_loop_succ, if_pos (by simp [h0])]
      have e : (35 :: T ++ 10 :: l) ++ c :: R = 35 :: (T ++ 10 :: (l ++ c :: R)) := by simp
      rw [e, next_char_hash, skip_to_next_line_eq_loop j 0 _ (by decide) rfl, h1]
      exact h
    · obtain ⟨ln1, h1, _⟩ := skip_to_next_line_loop_line T.length T l (le_refl _) hT
        j 0 fn ln er op (by decide) (by omega)
      obtain ⟨ln', h⟩ := (IH (j + 1) 10 fn ln1 er op (by decide) (by omega)).2
      refine ⟨ln', ?_⟩
      rw [skip_whitespace_loop_succ, if_pos (by simp [h0])]
      have e : (35 :: T ++ 10 :: l) = 35 :: (T ++ 10 :: l) := by simp
      rw [e, next_char_hash, skip_to_next_line_eq_loop j 0 _ (by decide) rfl, h1]
      exact h

/-! ## Keys, values and group headers -/

theorem keyname_loop_succ (n : Nat) (key : List Int) (c : Int) (D : df_t) :
    keyname_loop (n + 1) key c D
      = if key.length < 64 ∧ iskeychar c = true then
          (next_char n D).bind (fun r => keyname_loop n (key ++ [c]) r.1 r.2)
        else some (key, c, D) := by
  rw [keyname_loop]
  cases next_char n D <;> rfl

theorem read_groupname_loop_succ (n : Nat) (c : Int) (D : df_t) :
    read_groupname_loop (n + 1) c D
      = if c ≠ 93 then (next_char n D).bind (fun r => read_groupname_loop n r.1 r.2)
        else some D := by
  rw [read_groupname_loop]
  cases next_char n D <;> rfl

theorem read_rest_of_line_loop_succ (n : Nat) (str : List Int) (c : Int) (D : df_t) :
    read_rest_of_line_loop (n + 1) str c D
      = if str.length < 256 ∧ c ≠ 10 ∧ D.feof = false then
          if (str ++ [c]).length ≥ 256 then
            (skip_to_next_line n D).map (fun D1 => (str ++ [c], D1))
          else (next_char n D).bind (fun r => read_rest_of_line_loop n (str ++ [c]) r.1 r.2)
        else some (str, D) := by
  rw [read_rest_of_line_loop]
  cases next_char n D <;> cases skip_to_next_line n D <;> rfl

theorem iskeychar_ne (c : Int) (h : iskeychar c = true) :
    c ≠ 10 ∧ c ≠ 35 ∧ c ≠ 92 ∧ c ≠ 0 ∧ c ≠ -1 ∧ c ≠ 61 ∧ isspace c = false := by
  have hs : isspace c = false := by
    rw [Bool.eq_false_iff]
    intro hsp
    simp only [isspace, Bool.or_eq_true, beq_iff_eq, Bool.and_eq_true, decide_eq_true_eq] at hsp
    simp only [iskeychar, isalnum, Bool.or_eq_true, beq_iff_eq, Bool.and_eq_true,
      decide_eq_true_eq] at h
    omega
  simp only [iskeychar, isalnum, Bool.or_eq_true, beq_iff_eq, Bool.and_eq_true,
    decide_eq_true_eq] at h
  refine ⟨?_, ?_, ?_, ?_, ?_, ?_, hs⟩ <;> omega

theorem strdup_eq (s : List Int) (h : ∀ c ∈ s, c ≠ 0) : strdup s = s := by
  unfold strdup
  rw [List.takeWhile_eq_self_iff]
  intro c hc
  simpa using h c hc

/-- The loop of `keyname` on a key `c0 :: K` followed by a character `c` that
cannot be part of a key. -/
theorem keyname_loop_key (K : List Int) : ∀ (n : Nat) (acc : List Int) (c0 c : Int)
    (R : List Int) (fn : List Int) (ln : Nat) (er : List Diag) (op : Bool),
    iskeychar c0 = true → (∀ x ∈ K, iskeychar x = true) → acc.length + K.length + 1 ≤ 64 →
    iskeychar c = false → c ≠ 35 → c ≠ 92 → K.length + 2 ≤ n →
    keyname_loop n acc c0 ⟨K ++ c :: R, false, fn, ln, er, op⟩
      = some (acc ++ c0 :: K, c, ⟨R, false, fn, if c = 10 then ln + 1 else ln, er, op⟩) := by
  induction K with
  | nil =>
    intro n acc c0 c R fn ln er op h0 _ hlen hc h35 h92 hn
    obtain ⟨j, rfl⟩ : ∃ j, n = j + 2 := ⟨n - 2, by omega⟩
    simp only [List.length_nil] at hlen
    rw [keyname_loop_succ, if_pos ⟨by omega, h0⟩, List.nil_append,
      next_char_simple j c R false fn ln er op h35 h92, Option.bind, keyname_loop_succ,
      if_neg (by simp [hc])]
  | cons x K IH =>
    intro n acc c0 c R fn ln er op h0 hK hlen hc h35 h92 hn
    simp only [List.length_cons] at hn hlen
    obtain ⟨j, rfl⟩ : ∃ j, n = j + 2 := ⟨n - 2, by omega⟩
    have hx := hK x (List.mem_cons_self _ _)
    have hx' := iskeychar_ne x hx
    rw [keyname_loop_succ, if_pos ⟨by omega, h0⟩, List.cons_append,
      next_char_plain _ x _ false fn ln er op hx'.1 hx'.2.1 hx'.2.2.1, Option.bind]
    rw [IH (j + 1) (acc ++ [c0]) x c R fn ln er op hx (fun y hy => hK y (List.mem_cons_of_mem _ hy))
      (by simp only [List.length_append, List.length_singleton]; omega) hc h35 h92 (by omega)]
    simp

/-- The function `keyname` on a key `c0 :: K` of at most 64 characters followed
by a character `c` that cannot be part of a key: the key is returned and `c`
is pushed back. -/
theorem keyname_key (K : List Int) (n : Nat) (c0 c : Int) (R : List Int) (fn : List Int)
    (ln : Nat) (er : List Diag) (op : Bool) (h0 : iskeychar c0 = true) (hK : ∀ x ∈ K, iskeychar x = true)
    (hlen : K.length + 1 ≤ 64) (hc : iskeychar c = false) (h35 : c ≠ 35) (h92 : c ≠ 92)
    (hm1 : c ≠ -1) (hn : K.length + 2 ≤ n) :
    keyname n ⟨K ++ c :: R, false, fn, ln, er, op⟩ c0
      = some (some (c0 :: K), ⟨c :: R, false, fn, if c = 10 then ln + 1 else ln, er, op⟩) := by
  unfold keyname
  rw [keyname_loop_key K n [] c0 c R fn ln er op h0 hK (by simpa using hlen) hc h35 h92 hn]
  have hs : strdup (c0 :: K) = c0 :: K := by
    apply strdup_eq
    intro y hy
    rcases List.mem_cons.1 hy with rfl | hy
    · exact (iskeychar_ne _ h0).2.2.2.1
    · exact (iskeychar_ne _ (hK y hy)).2.2.2.1
  simp [ungetc, hm1, hs]

/-- The loop of `read_rest_of_line` on a value `c0 :: V` of at most 255
characters that is closed by a newline. -/
theorem read_rest_of_line_loop_value (V : List Int) : ∀ (n : Nat) (acc : List Int) (c0 : Int)
    (R : List Int) (fn : List Int) (ln : Nat) (er : List Diag) (op : Bool),
    c0 ≠ 10 → (∀ x ∈ V, x ≠ 10 ∧ x ≠ 35 ∧ x ≠ 92) → acc.length + V.length + 1 ≤ 255 →
    V.length + 2 ≤ n →
    read_rest_of_line_loop n acc c0 ⟨V ++ 10 :: R, false, fn, ln, er, op⟩
      = some (acc ++ c0 :: V, ⟨R, false, fn, ln + 1, er, op⟩) := by
  induction V with
  | nil =>
    intro n acc c0 R fn ln er op h0 _ hlen hn
    obtain ⟨j, rfl⟩ : ∃ j, n = j + 2 := ⟨n - 2, by omega⟩
    simp only [List.length_nil] at hlen
    rw [read_rest_of_line_loop_succ, if_pos ⟨by omega, h0, rfl⟩,
      if_neg (by simp only [List.length_append, List.length_singleton]; omega),
      List.nil_append, next_char_newline, Option.bind, read_rest_of_line_loop_succ,
      if_neg (by simp)]
  | cons x V IH =>
    intro n acc c0 R fn ln er op h0 hV hlen hn
    simp only [List.length_cons] at hn hlen
    obtain ⟨j, rfl⟩ : ∃ j, n = j + 2 := ⟨n - 2, by omega⟩
    have hx := hV x (List.mem_cons_self _ _)
    rw [read_rest_of_line_loop_succ, if_pos ⟨by omega, h0, rfl⟩,
      if_neg (by simp only [List.length_append, List.length_singleton]; omega),
      List.cons_append, next_char_plain _ x _ false fn ln er op hx.1 hx.2.1 hx.2.2, Option.bind]
    rw [IH (j + 1) (acc ++ [c0]) x R fn ln er op hx.1 (fun y hy => hV y (List.mem_cons_of_mem _ hy))
      (by simp only [List.length_append, List.length_singleton]; omega) (by omega)]
    simp

/-- The function `read_rest_of_line` called with the first character `c` of
`c :: rest`, where the line holds the value `V` (at most 255 characters, no
NUL) and its newline: the value is returned and the newline is read. -/
theorem read_rest_of_line_value (V : List Int) (n : Nat) (c : Int) (rest R : List Int)
    (fn : List Int) (ln ln0 : Nat) (er : List Diag) (op : Bool)
    (hV : ∀ x ∈ V, x ≠ 10 ∧ x ≠ 35 ∧ x ≠ 92 ∧ x ≠ 0) (hlen : V.length ≤ 255)
    (hsplit : c :: rest = V ++ 10 :: R) (hln : ln = if V = [] then ln0 + 1 else ln0)
    (hn : V.length + 2 ≤ n) :
    read_rest_of_line n ⟨rest, false, fn, ln, er, op⟩ c = some (V, ⟨R, false, fn, ln0 + 1, er, op⟩) := by
  unfold read_rest_of_line
  cases V with
  | nil =>
    obtain ⟨j, rfl⟩ : ∃ j, n = j + 1 := ⟨n - 1, by omega⟩
    simp only [List.nil_append, List.cons.injEq] at hsplit
    obtain ⟨rfl, rfl⟩ := hsplit
    simp only [if_true] at hln
    subst hln
    rw [read_rest_of_line_loop_succ, if_neg (by simp)]
    rfl
  | cons x V =>
    simp only [List.cons_append, List.cons.injEq] at hsplit
    obtain ⟨rfl, rfl⟩ := hsplit
    simp only [if_false, reduceCtorEq] at hln
    subst hln
    simp only [List.length_cons] at hn hlen
    have hx := hV c (List.mem_cons_self _ _)
    rw [read_rest_of_line_loop_value V n [] c R fn ln er op hx.1
      (fun y hy => ⟨(hV y (List.mem_cons_of_mem _ hy)).1, (hV y (List.mem_cons_of_mem _ hy)).2.1,
        (hV y (List.mem_cons_of_mem _ hy)).2.2.1⟩) (by simp only [List.length_nil]; omega)
      (by omega)]
    simp only [List.nil_append]
    rw [strdup_eq _ (fun y hy => (hV y hy).2.2.2)]

/-- The loop of `read_groupname` on a header text `T` closed by `]`; the text
may hold backslashes: an escaped character, `#` included, is read like any
other, and an escaped `]` closes the header too. -/
theorem read_groupname_loop_header (m : Nat) : ∀ (T : List Int), T.length ≤ m →
    ∀ (n : Nat) (c : Int) (R : List Int) (fn : List Int) (ln : Nat) (er : List Diag) (op : Bool),
    c ≠ 93 → (∀ x ∈ T, x ≠ 10 ∧ x ≠ 93) → hash_escaped T = true → T.length + 2 ≤ n →
    read_groupname_loop n c ⟨T ++ 93 :: R, false, fn, ln, er, op⟩
      = some ⟨R, false, fn, ln, er, op⟩ := by
  induction m using Nat.strong_induction_on with
  | _ m IH =>
    intro T hlen n c R fn ln er op hc hT hH hn
    obtain ⟨j, rfl⟩ : ∃ j, n = j + 2 := ⟨n - 2, by omega⟩
    rw [read_groupname_loop_succ, if_pos hc]
    match T, hlen, hT, hH, hn with
    | [], _, _, _, _ =>
      rw [List.nil_append,
        next_char_plain j 93 R false fn ln er op (by decide) (by decide) (by decide), Option.bind,
        read_groupname_loop_succ, if_neg (by simp)]
    | [x], hlen, hT, hH, hn =>
      have hx := hT x (List.mem_cons_self _ _)
      simp only [hash_escaped, bne_iff_ne, ne_eq] at hH
      by_cases h92 : x = 92
      · subst h92
        rw [List.cons_append, List.nil_append, next_char_escape, Option.bind,
          read_groupname_loop_succ, if_neg (by simp)]
      · rw [List.cons_append, next_char_plain _ x _ false fn ln er op hx.1 hH h92, Option.bind]
        exact IH 0 (by simp at hlen; omega) [] (le_refl _) (j + 1) x R fn ln er op hx.2
          (fun y hy => by simp at hy) rfl (by simp at hn ⊢; omega)
    | x :: d :: t, hlen, hT, hH, hn =>
      simp only [List.length_cons] at hn hlen
      have hx := hT x (List.mem_cons_self _ _)
      have hd := hT d (List.mem_cons_of_mem _ (List.mem_cons_self _ _))
      have hT' : ∀ y ∈ d :: t, y ≠ 10 ∧ y ≠ 93 :=
        fun y hy => hT y (List.mem_cons_of_mem _ hy)
      by_cases h92 : x = 92
      · subst h92
        simp only [hash_escaped, if_true] at hH
        rw [List.cons_append, List.cons_append, next_char_escape, Option.bind]
        exact IH t.length (by omega) t (le_refl _) (j + 1) d R fn ln er op hd.2
          (fun y hy => hT' y (List.mem_cons_of_mem _ hy)) hH (by omega)
      · simp only [hash_escaped, if_neg h92, Bool.and_eq_true, bne_iff_ne, ne_eq] at hH
        rw [List.cons_append, next_char_plain _ x _ false fn ln er op hx.1 hH.1 h92, Option.bind]
        exact IH (d :: t).length (by simp; omega) (d :: t) (le_refl _) (j + 1) x R fn ln er op
          hx.2 hT' hH.2 (by simp; omega)

/-! ## One `Key=Value` line -/

theorem wf_key_cases (K : List Int) (h : wf_key K = true) :
    ∃ c0 K', K = c0 :: K' ∧ iskeychar c0 = true ∧ c0 ≠ 91 ∧ (∀ x ∈ K', iskeychar x = true) ∧
      K'.length + 1 ≤ 63 := by
  cases K with
  | nil => simp [wf_key] at h
  | cons c0 K' =>
    simp only [wf_key, List.isEmpty_cons, Bool.not_false, Bool.true_and, List.length_cons,
      List.all_cons, List.head?_cons, Bool.and_eq_true, decide_eq_true_eq, List.all_eq_true,
      bne_iff_ne, ne_eq, Option.some.injEq] at h
    exact ⟨c0, K', rfl, h.1.2.1, h.2, h.1.2.2, h.1.1⟩

theorem is_blank_run_mem (w : List Int) (h : is_blank_run w = true) :
    ∀ x ∈ w, isspace x = true ∧ x ≠ 10 := by
  intro x hx
  simp only [is_blank_run, List.all_eq_true, Bool.or_eq_true, beq_iff_eq] at h
  rcases h x hx with rfl | rfl <;> exact ⟨by decide, by decide⟩

theorem wf_raw_value_cases (V : List Int) (h : wf_raw_value V = true) :
    V.length ≤ 255 ∧ (∀ x ∈ V, x ≠ 10 ∧ x ≠ 35 ∧ x ≠ 92 ∧ x ≠ 0) ∧
      (∀ c rest, V = c :: rest → isspace c = false) := by
  simp only [wf_raw_value, Bool.and_eq_true, decide_eq_true_eq, List.all_eq_true,
    bne_iff_ne, ne_eq] at h
  refine ⟨h.1.1, fun x hx => ?_, ?_⟩
  · have := h.1.2 x hx
    exact ⟨this.1.1.1, this.1.1.2, this.1.2, this.2⟩
  · intro c rest hV
    subst hV
    simpa using h.2

/-- The first part of `read_line` on a stretch `G` of blank lines and comments
followed by a line `K w1 = w2 rest`: the key is read and the character after the
whitespace `w2` is returned. -/
theorem read_line_upto_value {G : List Int} (hG : Gap G) (K w1 w2 : List Int) (c : Int)
    (rest : List Int) (fn : List Int)
    (ln : Nat) (er : List Diag) (op : Bool) (n : Nat) (hK : wf_key K = true)
    (hw1 : is_blank_run w1 = true) (hw2 : is_blank_run w2 = true)
    (hc : c = 10 ∨ isspace c = false) (h35 : c ≠ 35) (h92 : c ≠ 92)
    (hn : 2 * G.length + K.length + w1.length + w2.length + 5 ≤ n) :
    ∃ ln0, read_line n ⟨G ++ (K ++ w1 ++ 61 :: (w2 ++ c :: rest)), false, fn, ln, er, op⟩
      = (match read_rest_of_line n ⟨rest, false, fn, if c = 10 then ln0 + 1 else ln0, er, op⟩ c with
         | none => none
         | some (val, D5) =>
           match skip_whitespace n D5 true with
           | none => none
           | some (c3, D6) => some (some K, some val, ungetc c3 D6)) := by
  obtain ⟨c0, K', rfl, h0, h91, hK', hlen⟩ := wf_key_cases K hK
  have h0' := iskeychar_ne c0 h0
  simp only [List.length_cons] at hn
  obtain ⟨ln1, hs1⟩ := (skip_whitespace_loop_gap hG n 32 fn ln er op (by decide)
    (by omega)).1 c0
    (K' ++ w1 ++ 61 :: (w2 ++ c :: rest)) h0'.2.2.2.2.2.2 h0'.2.1 h0'.2.2.1
  have hw1' := is_blank_run_mem w1 hw1
  have hw2' := is_blank_run_mem w2 hw2
  -- the character after the key
  obtain ⟨d, R', hd, hdk, hd35, hd92, hdm1, hd10⟩ : ∃ d R', w1 ++ 61 :: (w2 ++ c :: rest) = d :: R' ∧
      iskeychar d = false ∧ d ≠ 35 ∧ d ≠ 92 ∧ d ≠ -1 ∧ d ≠ 10 := by
    cases w1 with
    | nil => exact ⟨61, _, rfl, by decide, by decide, by decide, by decide, by decide⟩
    | cons x w =>
      have hx := hw1' x (List.mem_cons_self _ _)
      have hx' := isspace_ne x hx.1
      refine ⟨x, _, rfl, ?_, hx'.1, hx'.2.1, hx'.2.2.1, hx.2⟩
      rw [Bool.eq_false_iff]
      intro hk
      have := (iskeychar_ne x hk).2.2.2.2.2.2
      rw [hx.1] at this
      exact absurd this (by decide)
  have hk := keyname_key K' n c0 d R' fn ln1 er op h0 hK' (by omega) hdk hd35 hd92 hdm1 (by omega)
  rw [if_neg hd10] at hk
  have hs2 := skip_whitespace_loop_inline w1 n 32 61 (w2 ++ c :: rest) fn ln1 er op hw1'
    (by decide) (by decide) (Or.inr (by decide)) (by decide) (by decide) (by omega)
  rw [if_neg (by decide)] at hs2
  have hs3 := skip_whitespace_loop_inline w2 n 32 c rest fn ln1 er op hw2'
    (by decide) (by decide) hc h35 h92 (by omega)
  refine ⟨ln1, ?_⟩
  have e : G ++ ((c0 :: K') ++ w1 ++ 61 :: (w2 ++ c :: rest))
      = G ++ c0 :: (K' ++ w1 ++ 61 :: (w2 ++ c :: rest)) := by simp
  have e2 : K' ++ w1 ++ 61 :: (w2 ++ c :: rest) = K' ++ d :: R' := by
    rw [List.append_assoc, hd]
  unfold read_line
  rw [e, skip_whitespace_eq_loop, hs1]
  simp only [h91, if_false]
  rw [e2, hk]
  simp only []
  rw [← hd, skip_whitespace_eq_loop, hs2]
  simp only [ne_eq, not_true_eq_false, if_false]
  rw [skip_whitespace_eq_loop, hs3]

/-- C4: one call of `read_line` on `K w1 = w2 V` newline `R` (`K` a key of 1 to
63 characters not starting with `[`, `w1` and `w2` runs of spaces and tabs, `V`
a string of at most 255 characters without newline, `#` or backslash that does
not start with whitespace) returns: the pair is exactly `(K, V)`, so the
whitespace after `=` is dropped, the value is kept verbatim up to the newline,
an empty `V` gives the empty value, and nothing of `R` is in the value. -/
theorem read_line_emits_pair (K w1 w2 V R : List Int) (fn : List Int) (ln : Nat)
    (er : List Diag) (op : Bool) (n : Nat) (hK : wf_key K = true) (hw1 : is_blank_run w1 = true)
    (hw2 : is_blank_run w2 = true) (hV : wf_raw_value V = true)
    (hn : 2 * (K ++ w1 ++ 61 :: (w2 ++ V ++ 10 :: R)).length + 5 ≤ n) :
    ∃ D', read_line n ⟨K ++ w1 ++ 61 :: (w2 ++ V ++ 10 :: R), false, fn, ln, er, op⟩
        = some (some K, some V, D') ∧ D'.err = er ∧ D'.fp.length ≤ R.length + 1 := by
  obtain ⟨hlen, hV', hV0⟩ := wf_raw_value_cases V hV
  simp only [List.length_append, List.length_cons] at hn
  obtain ⟨c, rest, hsplit, hc, h35, h92⟩ : ∃ c rest, c :: rest = V ++ 10 :: R ∧
      (c = 10 ∨ isspace c = false) ∧ c ≠ 35 ∧ c ≠ 92 := by
    cases V with
    | nil => exact ⟨10, R, rfl, Or.inl rfl, by decide, by decide⟩
    | cons v V' =>
      have hv := hV' v (List.mem_cons_self _ _)
      exact ⟨v, V' ++ 10 :: R, rfl, Or.inr (hV0 v V' rfl), hv.2.1, hv.2.2.1⟩
  obtain ⟨ln0, h1⟩ := read_line_upto_value Gap.nil K w1 w2 c rest fn ln er op n hK hw1 hw2 hc
    h35 h92 (by simp only [List.length_nil]; omega)
  rw [List.nil_append] at h1
  have hln : (if c = 10 then ln0 + 1 else ln0) = if V = [] then ln0 + 1 else ln0 := by
    cases V with
    | nil =>
      simp only [List.nil_append, List.cons.injEq] at hsplit
      simp [hsplit.1]
    | cons v V' =>
      simp only [List.cons_append, List.cons.injEq] at hsplit
      have hv := hV' v (List.mem_cons_self _ _)
      rw [← hsplit.1] at hv
      simp [hv.1]
  have h2 := read_rest_of_line_value V n c rest R fn _ ln0 er op hV' hlen hsplit hln (by omega)
  obtain ⟨c3, D6, h3, hk⟩ := skip_whitespace_total ⟨R, false, fn, ln0 + 1, er, op⟩ n true
    (by simp only []; omega)
  refine ⟨ungetc c3 D6, ?_, ?_, ?_⟩
  · have e : w2 ++ V ++ 10 :: R = w2 ++ c :: rest := by rw [List.append_assoc, hsplit]
    rw [e, h1, h2]
    simp only []
    rw [h3]
  · unfold ungetc
    split
    · exact hk.2.1
    · exact hk.2.1
  · have := hk.2.2.1
    unfold ungetc
    split
    · simp only [] at this; omega
    · simp only [List.length_cons] at this ⊢; omega

theorem read_line_emits_pair_witness :
    ∃ D', read_line 60 ⟨cstr "Exec" ++ cstr " " ++ 61 :: (cstr "\t " ++ cstr "a b  " ++ 10 :: cstr "Name=x\n"),
        false, [], 1, [], true⟩
        = some (some (cstr "Exec"), some (cstr "a b  "), D') ∧ D'.err = [] ∧
          D'.fp.length ≤ (cstr "Name=x\n").length + 1 :=
  read_line_emits_pair (cstr "Exec") (cstr " ") (cstr "\t ") (cstr "a b  ") (cstr "Name=x\n") [] 1 []
    true
    60 (by decide) (by decide) (by decide) (by decide) (by decide)

/-! ## Concrete runs -/

/-- C3: `has_extension` reports a match for a name shorter than the suffix
whenever the name is a tail of the suffix: it returns 1 on `"top"`, on `"p"`
and on the empty name, none of which ends in `.desktop`. -/
theorem has_extension_short_name :
    has_extension (cstr "top") (cstr ".desktop") = 1 ∧
    has_extension (cstr "p") (cstr ".desktop") = 1 ∧
    has_extension [] (cstr ".desktop") = 1 := by
  decide

/-- C2: on Scenario D, `BadLine` followed by `Name=X` and `Exec=Y`, the loader
logs the syntax error and then discards the line `Name=X` with it: the name
slot stays unset and a missing-`Name` error is logged, whereas the two lines
alone give the name `X`. -/
theorem read_desktop_file_scenario_d :
    read_desktop_file 100 (fun _ => some (cstr "BadLine\nName=X\nExec=Y\n")) (cstr "a.desktop")
        ⟨none, none, none⟩
      = some ⟨⟨none, none, some (cstr "Y")⟩,
          [Diag.error (cstr "a.desktop") 3 Msg.expected_eq,
           Diag.error (cstr "a.desktop") 5 Msg.no_name], true⟩ ∧
    read_desktop_file 100 (fun _ => some (cstr "Name=X\nExec=Y\n")) (cstr "a.desktop")
        ⟨none, none, none⟩
      = some ⟨⟨some (cstr "X"), none, some (cstr "Y")⟩, [], true⟩ := by
  decide!

theorem read_groupname_loop_at_eof (n : Nat) : ∀ (c : Int) (e : Bool) (fn : List Int)
    (ln : Nat) (er : List Diag) (op : Bool), c ≠ 93 →
    read_groupname_loop n c ⟨[], e, fn, ln, er, op⟩ = none := by
  induction n with
  | zero => intros; rfl
  | succ n IH =>
    intro c e fn ln er op hc
    rw [read_groupname_loop_succ, if_pos hc]
    cases n with
    | zero => rfl
    | succ k =>
      rw [next_char_eof, Option.bind]
      exact IH (-1) true fn ln er op (by decide)

/-- A group header that is not closed before end-of-file: the loop of
`read_groupname` returns for no fuel. -/
theorem read_groupname_loop_unclosed (T : List Int) : ∀ (n : Nat) (c : Int) (e : Bool)
    (fn : List Int) (ln : Nat) (er : List Diag) (op : Bool), c ≠ 93 →
    (∀ x ∈ T, x ≠ 93 ∧ x ≠ 35 ∧ x ≠ 92) →
    read_groupname_loop n c ⟨T, e, fn, ln, er, op⟩ = none := by
  induction T with
  | nil =>
    intro n c e fn ln er op hc _
    exact read_groupname_loop_at_eof n c e fn ln er op hc
  | cons x T IH =>
    intro n c e fn ln er op hc hT
    have hx := hT x (List.mem_cons_self _ _)
    cases n with
    | zero => rfl
    | succ n =>
      rw [read_groupname_loop_succ, if_pos hc]
      cases n with
      | zero => rfl
      | succ k =>
        rw [next_char_simple k x T e fn ln er op hx.2.1 hx.2.2, Option.bind]
        exact IH (k + 1) x e fn _ er op hx.1 (fun y hy => hT y (List.mem_cons_of_mem _ hy))

theorem read_line_unclosed (T : List Int) (n : Nat) (fn : List Int) (ln : Nat)
    (er : List Diag) (op : Bool) (hT : ∀ x ∈ T, x ≠ 93 ∧ x ≠ 35 ∧ x ≠ 92) :
    read_line n ⟨91 :: T, false, fn, ln, er, op⟩ = none := by
  unfold read_line
  rcases n with _ | _ | j
  · rfl
  · rfl
  · rw [skip_whitespace_succ, next_char_plain j 91 T false fn ln er op (by decide) (by decide)
      (by decide), Option.bind, skip_whitespace_loop_stop j true 91 _ (by decide)]
    simp only [if_true]
    unfold read_groupname
    rw [read_groupname_loop_unclosed T (j + 1 + 1) 91 false fn ln er op (by decide) hT]

/-- C6: on the file `[abc`, whose group header is never closed, the loader does
not return: `read_groupname` has no end-of-file test and keeps reading `-1`,
so the model returns `none` for every fuel. -/
theorem read_desktop_file_unclosed_header (n : Nat) (s : Slots) :
    read_desktop_file n (fun _ => some (cstr "[abc")) (cstr "a.desktop") s = none := by
  have hext : has_extension (cstr "a.desktop") (cstr ".desktop") ≠ 0 := by decide
  have hc : cstr "[abc" = 91 :: cstr "abc" := by decide
  have hT : ∀ x ∈ cstr "abc", x ≠ 93 ∧ x ≠ 35 ∧ x ≠ 92 := by decide
  unfold read_desktop_file
  rw [if_neg hext]
  simp only [hc]
  cases n with
  | zero => rfl
  | succ k =>
    rw [read_desktop_file_loop]
    simp only [if_true]
    rw [read_line_unclosed (cstr "abc") k (cstr "a.desktop") 1 [] true hT]

/-! ## One call of `read_line` inside a file of well-formed lines -/

theorem Gap.append {a b : List Int} (ha : Gap a) (hb : Gap b) : Gap (a ++ b) := by
  induction ha with
  | nil => exact hb
  | space c l hc _ ih => exact Gap.space c (l ++ b) hc ih
  | comment T l hT _ ih =>
    have e : (35 :: T ++ 10 :: l) ++ b = 35 :: T ++ 10 :: (l ++ b) := by simp
    rw [e]
    exact Gap.comment T (l ++ b) hT ih

theorem Gap.of_spaces (w : List Int) (h : ∀ x ∈ w, isspace x = true) : Gap w := by
  induction w with
  | nil => exact Gap.nil
  | cons x w ih =>
    exact Gap.space x w (h x (List.mem_cons_self _ _))
      (ih (fun y hy => h y (List.mem_cons_of_mem _ hy)))

theorem error_at_eof (j : Nat) (e : Bool) (fn : List Int) (ln : Nat) (er : List Diag) (op : Bool)
    (msg : Msg) :
    error (j + 2) ⟨[], e, fn, ln, er, op⟩ msg
      = some ⟨[], true, fn, ln, er ++ [Diag.error fn ln msg], op⟩ := by
  unfold error
  rw [skip_to_next_line_succ, next_char_eof, Option.bind]
  exact skip_to_next_line_loop_feof j _ _ rfl

/-- The call of `read_line` at the end of the file, after a last stretch of
blank lines and comments: it finds no key and logs a syntax error. -/
theorem read_line_at_end {G : List Int} (hG : Gap G) (n : Nat) (fn : List Int) (ln : Nat)
    (er : List Diag) (op : Bool) (hn : 2 * G.length + 5 ≤ n) :
    ∃ ln', read_line n ⟨G, false, fn, ln, er, op⟩
      = some (none, none, ⟨[], true, fn, ln', er ++ [Diag.error fn ln' Msg.expected_key], op⟩) := by
  obtain ⟨j, rfl⟩ : ∃ j, n = j + 2 := ⟨n - 2, by omega⟩
  obtain ⟨ln', h⟩ := (skip_whitespace_loop_gap hG (j + 2) 32 fn ln er op (by decide) (by omega)).2
  refine ⟨ln', ?_⟩
  unfold read_line
  rw [skip_whitespace_eq_loop, h]
  simp only [show ¬ ((-1 : Int) = 91) by decide, if_false]
  have hk : keyname (j + 2) ⟨[], true, fn, ln', er, op⟩ (-1) = some (none, ⟨[], true, fn, ln', er, op⟩) := by
    unfold keyname
    rw [keyname_loop_succ, if_neg (by simp [show iskeychar (-1) = false by decide])]
    simp [ungetc]
  rw [hk]
  simp only []
  rw [error_at_eof]

/-- The call of `read_line` on a group header `[T]`: the header is read up to
its `]` and no pair is returned. -/
theorem read_line_header {G : List Int} (hG : Gap G) (T R : List Int)
    (hT : ∀ x ∈ T, x ≠ 10 ∧ x ≠ 93) (hH : hash_escaped T = true) (n : Nat) (fn : List Int)
    (ln : Nat) (er : List Diag) (op : Bool) (hn : 2 * G.length + T.length + 5 ≤ n) :
    ∃ ln', read_line n ⟨G ++ 91 :: (T ++ 93 :: R), false, fn, ln, er, op⟩
      = some (none, none, ⟨R, false, fn, ln', er, op⟩) := by
  obtain ⟨ln', h⟩ := (skip_whitespace_loop_gap hG n 32 fn ln er op (by decide) (by omega)).1 91
    (T ++ 93 :: R) (by decide) (by decide) (by decide)
  refine ⟨ln', ?_⟩
  unfold read_line
  rw [skip_whitespace_eq_loop, h]
  simp only [if_true]
  unfold read_groupname
  rw [read_groupname_loop_header T.length T (le_refl _) n 91 R fn ln' er op (by decide) hT hH
    (by omega)]

/-- The call of `read_line` on a line `K=V`: the pair `(K, V)` is returned after
the look-ahead `skip_whitespace(D, 1)` on what follows the line. -/
theorem read_line_pair_then {G : List Int} (hG : Gap G) (K V tl : List Int)
    (hK : wf_key K = true) (hV : wf_raw_value V = true) (n : Nat) (fn : List Int) (ln : Nat)
    (er : List Diag) (op : Bool) (hn : 2 * G.length + K.length + V.length + 5 ≤ n) :
    ∃ ln0, read_line n ⟨G ++ (K ++ 61 :: (V ++ 10 :: tl)), false, fn, ln, er, op⟩
      = (match skip_whitespace n ⟨tl, false, fn, ln0 + 1, er, op⟩ true with
         | none => none
         | some (c3, D6) => some (some K, some V, ungetc c3 D6)) := by
  obtain ⟨hlen, hV', hV0⟩ := wf_raw_value_cases V hV
  obtain ⟨c, rest, hsplit, hc, h35, h92⟩ : ∃ c rest, c :: rest = V ++ 10 :: tl ∧
      (c = 10 ∨ isspace c = false) ∧ c ≠ 35 ∧ c ≠ 92 := by
    cases V with
    | nil => exact ⟨10, tl, rfl, Or.inl rfl, by decide, by decide⟩
    | cons v V' =>
      have hv := hV' v (List.mem_cons_self _ _)
      exact ⟨v, V' ++ 10 :: tl, rfl, Or.inr (hV0 v V' rfl), hv.2.1, hv.2.2.1⟩
  obtain ⟨ln0, h1⟩ := read_line_upto_value hG K [] [] c rest fn ln er op n hK (by decide)
    (by decide) hc h35 h92 (by simp only [List.length_nil]; omega)
  have hln : (if c = 10 then ln0 + 1 else ln0) = if V = [] then ln0 + 1 else ln0 := by
    cases V with
    | nil =>
      simp only [List.nil_append, List.cons.injEq] at hsplit
      simp [hsplit.1]
    | cons v V' =>
      simp only [List.cons_append, List.cons.injEq] at hsplit
      have hv := hV' v (List.mem_cons_self _ _)
      rw [← hsplit.1] at hv
      simp [hv.1]
  have h2 := read_rest_of_line_value V n c rest tl fn _ ln0 er op hV' hlen hsplit hln (by omega)
  refine ⟨ln0, ?_⟩
  rw [List.append_nil, List.nil_append, hsplit] at h1
  rw [h1, h2]

/-- The call of `read_line` on a line `K=V` followed by a stretch `G2` of blank
lines and comments: the pair is returned, `G2` is read over, and the character
`c` after it is pushed back, or the end-of-file indicator is set when nothing
follows. -/
theorem read_line_pair {G G2 : List Int} (hG : Gap G) (hG2 : Gap G2) (K V : List Int)
    (hK : wf_key K = true) (hV : wf_raw_value V = true) (n : Nat) (fn : List Int) (ln : Nat)
    (er : List Diag) (op : Bool) (hn : 2 * G.length + K.length + V.length + 2 * G2.length + 5 ≤ n) :
    (∀ (c : Int) (R : List Int), isspace c = false → c ≠ 35 → c ≠ 92 → c ≠ -1 →
      ∃ ln', read_line n ⟨G ++ (K ++ 61 :: (V ++ 10 :: (G2 ++ c :: R))), false, fn, ln, er, op⟩
        = some (some K, some V, ⟨c :: R, false, fn, ln', er, op⟩)) ∧
    (∃ ln', read_line n ⟨G ++ (K ++ 61 :: (V ++ 10 :: G2)), false, fn, ln, er, op⟩
        = some (some K, some V, ⟨[], true, fn, ln', er, op⟩)) := by
  constructor
  · intro c R hc h35 h92 hm1
    obtain ⟨ln0, h1⟩ := read_line_pair_then hG K V (G2 ++ c :: R) hK hV n fn ln er op (by omega)
    obtain ⟨ln', h2⟩ := (skip_whitespace_loop_gap hG2 n 32 fn (ln0 + 1) er op (by decide)
      (by omega)).1 c R hc h35 h92
    refine ⟨ln', ?_⟩
    rw [h1, skip_whitespace_eq_loop, h2]
    simp [ungetc, hm1]
  · obtain ⟨ln0, h1⟩ := read_line_pair_then hG K V G2 hK hV n fn ln er op (by omega)
    obtain ⟨ln', h2⟩ := (skip_whitespace_loop_gap hG2 n 32 fn (ln0 + 1) er op (by decide)
      (by omega)).2
    refine ⟨ln', ?_⟩
    rw [h1, skip_whitespace_eq_loop, h2]
    simp [ungetc]

/-! ## The loop of `read_desktop_file` on a file of well-formed lines -/

theorem wf_value_raw (v : List Int) (h : wf_value v = true) : wf_raw_value v = true := by
  simp only [wf_value, Bool.and_eq_true, decide_eq_true_eq, List.all_eq_true, bne_iff_ne,
    ne_eq] at h
  simp only [wf_raw_value, Bool.and_eq_true, decide_eq_true_eq, List.all_eq_true, bne_iff_ne,
    ne_eq]
  refine ⟨⟨h.1.1, fun x hx => ?_⟩, h.2⟩
  have hx' := h.1.2 x hx
  have hp : 32 ≤ x := by
    have := hx'.1.1
    simp only [isprint, Bool.and_eq_true, decide_eq_true_eq] at this
    exact this.1
  refine ⟨⟨⟨?_, hx'.1.2⟩, hx'.2⟩, ?_⟩ <;> omega

theorem content_append (a b : List Line) : content (a ++ b) = content a ++ content b := by
  induction a with
  | nil => rfl
  | cons l a ih => simp [content, ih]

/-- Every file of well-formed lines is a stretch of blank lines and comments
followed by nothing or by lines that start with a group header or a
`Key=Value` line. -/
theorem lines_split (ls : List Line) (hwf : ∀ l ∈ ls, l.wf = true) :
    ∃ G rest, Gap G ∧ content ls = G ++ content rest ∧ rest.length ≤ ls.length ∧
      (∀ l ∈ rest, l.wf = true) ∧ (∀ s, adopt_lines s ls = adopt_lines s rest) ∧
      (rest = [] ∨ ∃ c R, content rest = c :: R ∧ isspace c = false ∧ c ≠ 35 ∧ c ≠ 92 ∧
        c ≠ -1) ∧
      ends_with_pair rest = ends_with_pair ls ∧ (ls.all Line.is_gap = true → rest = []) := by
  induction ls with
  | nil =>
    exact ⟨[], [], Gap.nil, rfl, le_refl _, hwf, fun _ => rfl, Or.inl rfl, rfl, fun _ => rfl⟩
  | cons l ls ih =>
    have hl := hwf l (List.mem_cons_self _ _)
    obtain ⟨G, rest, hG, hc, hlen, hwf', had, hrest, hE1, hE2⟩ :=
      ih (fun x hx => hwf x (List.mem_cons_of_mem _ hx))
    cases l with
    | blank ws =>
      have hws : ∀ x ∈ ws ++ [10], isspace x = true := by
        intro x hx
        simp only [Line.wf, Line.wf_spec, List.all_eq_true, Bool.and_eq_true] at hl
        rcases List.mem_append.1 hx with h | h
        · exact (hl x h).1
        · simp only [List.mem_singleton] at h; subst h; decide
      refine ⟨(ws ++ [10]) ++ G, rest, (Gap.of_spaces _ hws).append hG, ?_, ?_, hwf',
        fun s => had s, hrest, hE1,
        fun h => hE2 (by simpa [List.all_cons, Line.is_gap] using h)⟩
      · simp [content, Line.chars, hc]
      · simp only [List.length_cons]; omega
    | comment t =>
      have ht : 10 ∉ t := by
        simp only [Line.wf, Line.wf_spec, List.all_eq_true, Bool.and_eq_true, bne_iff_ne,
          ne_eq] at hl
        exact fun h => (hl 10 h).1 rfl
      refine ⟨(35 :: t ++ 10 :: []) ++ G, rest, (Gap.comment t [] ht Gap.nil).append hG, ?_, ?_,
        hwf', fun s => had s, hrest, hE1,
        fun h => hE2 (by simpa [List.all_cons, Line.is_gap] using h)⟩
      · simp [content, Line.chars, hc]
      · simp only [List.length_cons]; omega
    | group t =>
      refine ⟨[], Line.group t :: ls, Gap.nil, rfl, le_refl _, hwf, fun _ => rfl,
        Or.inr ⟨91, t ++ [93, 10] ++ content ls, ?_, by decide, by decide, by decide,
          by decide⟩, rfl, fun h => by simp [List.all_cons, Line.is_gap] at h⟩
      simp [content, Line.chars]
    | kv k v =>
      simp only [Line.wf, Line.wf_spec, Bool.and_eq_true] at hl
      obtain ⟨c0, K', rfl, h0, _, _, _⟩ := wf_key_cases k hl.1
      have h0' := iskeychar_ne c0 h0
      refine ⟨[], Line.kv (c0 :: K') v :: ls, Gap.nil, rfl, le_refl _, hwf, fun _ => rfl,
        Or.inr ⟨c0, K' ++ 61 :: v ++ [10] ++ content ls, ?_, h0'.2.2.2.2.2.2, h0'.2.1,
          h0'.2.2.1, h0'.2.2.2.2.1⟩, rfl, fun h => by simp [List.all_cons, Line.is_gap] at h⟩
      simp [content, Line.chars]

theorem read_desktop_file_loop_succ (n : Nat) (D : df_t) (s : Slots) :
    read_desktop_file_loop (n + 1) D s
      = if D.feof = false then
          (read_line n D).bind (fun r => read_desktop_file_loop n r.2.2 (adopt r.1 r.2.1 s))
        else some (D, s) := by
  rw [read_desktop_file_loop]
  cases read_line n D <;> rfl

/-- The loop of `read_desktop_file` on a file of well-formed lines, after a
stretch `G` of blank lines and comments: it returns at end-of-file with the
pairs of the lines adopted in order, and it has logged nothing when the last
line that is neither blank nor a comment is a `Key=Value` line. -/
theorem read_desktop_file_loop_lines (m : Nat) : ∀ (ls : List Line), ls.length ≤ m →
    (∀ l ∈ ls, l.wf = true) → ∀ (G : List Int), Gap G → ∀ (n : Nat) (fn : List Int) (ln : Nat)
    (er : List Diag) (op : Bool) (s : Slots), 2 * (G ++ content ls).length + 20 ≤ n →
    ∃ D', read_desktop_file_loop n ⟨G ++ content ls, false, fn, ln, er, op⟩ s
        = some (D', adopt_lines s ls) ∧ D'.fp = [] ∧ D'.feof = true ∧ D'.fname = fn ∧
          (ends_with_pair ls = true → D'.err = er) := by
  induction m with
  | zero =>
    intro ls hlen _ G hG n fn ln er op s hn
    have hnil : ls = [] := List.length_eq_zero.1 (Nat.le_zero.1 hlen)
    subst hnil
    obtain ⟨j, rfl⟩ : ∃ j, n = j + 2 := ⟨n - 2, by omega⟩
    simp only [content, List.append_nil, List.length_append, List.length_nil] at hn ⊢
    obtain ⟨ln', h⟩ := read_line_at_end hG (j + 1) fn ln er op (by omega)
    refine ⟨⟨[], true, fn, ln', er ++ [Diag.error fn ln' Msg.expected_key], op⟩, ?_, rfl, rfl, rfl,
      fun h => by simp [ends_with_pair] at h⟩
    rw [read_desktop_file_loop_succ, if_pos rfl, h, Option.bind, read_desktop_file_loop_succ,
      if_neg (by simp)]
    rfl
  | succ m IH =>
    intro ls hlen hwf G hG n fn ln er op s hn
    cases ls with
    | nil => exact IH [] (Nat.zero_le _) hwf G hG n fn ln er op s hn
    | cons l ls =>
      simp only [List.length_cons] at hlen
      have hl := hwf l (List.mem_cons_self _ _)
      have hwf' : ∀ x ∈ ls, x.wf = true := fun x hx => hwf x (List.mem_cons_of_mem _ hx)
      cases l with
      | blank ws =>
        have hws : ∀ x ∈ ws ++ [10], isspace x = true := by
          intro x hx
          simp only [Line.wf, Line.wf_spec, List.all_eq_true, Bool.and_eq_true] at hl
          rcases List.mem_append.1 hx with h | h
          · exact (hl x h).1
          · simp only [List.mem_singleton] at h; subst h; decide
        have e : G ++ content (Line.blank ws :: ls) = (G ++ (ws ++ [10])) ++ content ls := by
          simp [content, Line.chars]
        rw [e] at hn ⊢
        exact IH ls (by omega) hwf' _ (hG.append (Gap.of_spaces _ hws)) n fn ln er op s hn
      | comment t =>
        have ht : 10 ∉ t := by
          simp only [Line.wf, Line.wf_spec, List.all_eq_true, Bool.and_eq_true, bne_iff_ne,
            ne_eq] at hl
          exact fun h => (hl 10 h).1 rfl
        have e : G ++ content (Line.comment t :: ls)
            = (G ++ (35 :: t ++ 10 :: [])) ++ content ls := by
          simp [content, Line.chars]
        rw [e] at hn ⊢
        exact IH ls (by omega) hwf' _ (hG.append (Gap.comment t [] ht Gap.nil)) n fn ln er op s hn
      | group t =>
        simp only [Line.wf, Bool.and_eq_true, List.all_eq_true, bne_iff_ne, ne_eq] at hl
        have ht : ∀ x ∈ t, x ≠ 10 ∧ x ≠ 93 := hl.1
        have htH : hash_escaped t = true := hl.2
        have e : G ++ content (Line.group t :: ls) = G ++ 91 :: (t ++ 93 :: (10 :: content ls)) := by
          simp [content, Line.chars]
        rw [e] at hn ⊢
        simp only [List.length_append, List.length_cons] at hn
        obtain ⟨j, rfl⟩ : ∃ j, n = j + 1 := ⟨n - 1, by omega⟩
        obtain ⟨ln', h⟩ := read_line_header hG t (10 :: content ls) ht htH j fn ln er op (by omega)
        obtain ⟨D', h2, hD'⟩ := IH ls (by omega) hwf' [10] (Gap.space 10 [] (by decide) Gap.nil)
          j fn ln' er op s (by simp only [List.length_append, List.length_cons, List.length_nil]; omega)
        refine ⟨D', ?_, hD'⟩
        rw [read_desktop_file_loop_succ, if_pos rfl, h, Option.bind]
        exact h2
      | kv k v =>
        simp only [Line.wf, Line.wf_spec, Bool.and_eq_true] at hl
        obtain ⟨G2, rest, hG2, hc, hrlen, hrwf, had, hrest, hE1, hE2⟩ := lines_split ls hwf'
        have e : G ++ content (Line.kv k v :: ls)
            = G ++ (k ++ 61 :: (v ++ 10 :: (G2 ++ content rest))) := by
          simp [content, Line.chars, hc]
        rw [e] at hn ⊢
        simp only [List.length_append, List.length_cons] at hn
        obtain ⟨j, rfl⟩ : ∃ j, n = j + 2 := ⟨n - 2, by omega⟩
        have hp := read_line_pair hG hG2 k v hl.1 (wf_value_raw v hl.2) (j + 1) fn ln er op (by omega)
        have hs : adopt_lines s (Line.kv k v :: ls)
            = adopt_lines (adopt (some k) (some v) s) rest := by
          rw [← had]; rfl
        rw [hs]
        rcases hrest with hnil | ⟨c, R, hcR, hcs, h35, h92, hm1⟩
        · subst hnil
          obtain ⟨ln', h⟩ := hp.2
          refine ⟨⟨[], true, fn, ln', er, op⟩, ?_, rfl, rfl, rfl, fun _ => rfl⟩
          simp only [content, List.append_nil]
          rw [read_desktop_file_loop_succ, if_pos rfl, h, Option.bind,
            read_desktop_file_loop_succ, if_neg (by simp)]
          rfl
        · obtain ⟨ln', h⟩ := hp.1 c R hcs h35 h92 hm1
          have hlenR : (content rest).length = R.length + 1 := by rw [hcR]; rfl
          obtain ⟨D', h2, hD'⟩ := IH rest (by omega) hrwf [] Gap.nil (j + 1) fn ln' er op
            (adopt (some k) (some v) s)
            (by simp only [List.nil_append]; omega)
          have hquiet : ends_with_pair (Line.kv k v :: ls) = true →
              ends_with_pair rest = true := by
            intro hep
            simp only [ends_with_pair, Bool.or_eq_true] at hep
            rcases hep with hall | hep
            · have hnil := hE2 hall
              rw [hnil] at hcR
              simp [content] at hcR
            · rw [hE1]; exact hep
          refine ⟨D', ?_, hD'.1, hD'.2.1, hD'.2.2.1, fun hep => hD'.2.2.2 (hquiet hep)⟩
          rw [hcR, read_desktop_file_loop_succ, if_pos rfl, h, Option.bind]
          rw [List.nil_append, hcR] at h2
          exact h2

/-! ## The three outputs on a file of well-formed lines -/

theorem key_names_ne :
    cstr "Comment" ≠ cstr "Name" ∧ cstr "Exec" ≠ cstr "Name" ∧ cstr "Exec" ≠ cstr "Comment" ∧
    cstr "Name" ≠ cstr "Comment" ∧ cstr "Name" ≠ cstr "Exec" ∧ cstr "Comment" ≠ cstr "Exec" := by
  decide

theorem adopt_app_name (k v : List Int) (s : Slots) :
    (adopt (some k) (some v) s).app_name = if k = cstr "Name" then some v else s.app_name := by
  obtain ⟨e1, e2, e3, e4, e5, e6⟩ := key_names_ne
  unfold adopt
  by_cases h1 : k = cstr "Name"
  · simp [h1]
  · by_cases h2 : k = cstr "Comment"
    · simp [h2, e1]
    · by_cases h3 : k = cstr "Exec"
      · simp [h3, e2, e3]
      · simp [h1, h2, h3]

theorem adopt_app_exec (k v : List Int) (s : Slots) :
    (adopt (some k) (some v) s).app_exec = if k = cstr "Exec" then some v else s.app_exec := by
  obtain ⟨e1, e2, e3, e4, e5, e6⟩ := key_names_ne
  unfold adopt
  by_cases h1 : k = cstr "Name"
  · simp [h1, e5]
  · by_cases h2 : k = cstr "Comment"
    · simp [h2, e1, e6]
    · by_cases h3 : k = cstr "Exec"
      · simp [h3, e2, e3]
      · simp [h1, h2, h3]

theorem adopt_app_descr (k v : List Int) (s : Slots) :
    (adopt (some k) (some v) s).app_descr
      = if k = cstr "Comment" then some v else s.app_descr := by
  obtain ⟨e1, e2, e3, e4, e5, e6⟩ := key_names_ne
  unfold adopt
  by_cases h1 : k = cstr "Name"
  · simp [h1, e4]
  · by_cases h2 : k = cstr "Comment"
    · simp [h2, e1]
    · by_cases h3 : k = cstr "Exec"
      · simp [h3, e2, e3]
      · simp [h1, h2, h3]

theorem adopt_lines_app_name (ls : List Line) : ∀ s : Slots,
    (adopt_lines s ls).app_name
      = (match last_value (cstr "Name") ls with
         | some v => some v
         | none => s.app_name) := by
  induction ls with
  | nil => intro s; rfl
  | cons l ls ih =>
    intro s
    cases l with
    | kv k v =>
      simp only [adopt_lines, last_value]
      rw [ih, adopt_app_name]
      cases last_value (cstr "Name") ls with
      | some w => rfl
      | none => by_cases h : k = cstr "Name" <;> simp [h]
    | blank ws => exact ih s
    | comment t => exact ih s
    | group t => exact ih s

theorem adopt_lines_app_exec (ls : List Line) : ∀ s : Slots,
    (adopt_lines s ls).app_exec
      = (match last_value (cstr "Exec") ls with
         | some v => some v
         | none => s.app_exec) := by
  induction ls with
  | nil => intro s; rfl
  | cons l ls ih =>
    intro s
    cases l with
    | kv k v =>
      simp only [adopt_lines, last_value]
      rw [ih, adopt_app_exec]
      cases last_value (cstr "Exec") ls with
      | some w => rfl
      | none => by_cases h : k = cstr "Exec" <;> simp [h]
    | blank ws => exact ih s
    | comment t => exact ih s
    | group t => exact ih s

theorem adopt_lines_app_descr (ls : List Line) : ∀ s : Slots,
    (adopt_lines s ls).app_descr
      = (match last_value (cstr "Comment") ls with
         | some v => some v
         | none => s.app_descr) := by
  induction ls with
  | nil => intro s; rfl
  | cons l ls ih =>
    intro s
    cases l with
    | kv k v =>
      simp only [adopt_lines, last_value]
      rw [ih, adopt_app_descr]
      cases last_value (cstr "Comment") ls with
      | some w => rfl
      | none => by_cases h : k = cstr "Comment" <;> simp [h]
    | blank ws => exact ih s
    | comment t => exact ih s
    | group t => exact ih s

/-- The two checks after the loop return when the stream is at end-of-file,
and they log one line for each of the two slots that is unset. -/
theorem missing_fields_at_eof (j : Nat) (e : Bool) (fn : List Int) (ln : Nat)
    (er : List Diag) (op : Bool) (s : Slots) :
    missing_fields (j + 2) ⟨[], e, fn, ln, er, op⟩ s
      = some ⟨[], (if s.app_name = none ∨ s.app_exec = none then true else e), fn, ln,
          er ++ ((if s.app_name = none then [Diag.error fn ln Msg.no_name] else []) ++
            (if s.app_exec = none then [Diag.error fn ln Msg.no_exec] else [])), op⟩ := by
  unfold missing_fields
  by_cases h1 : s.app_name = none <;> by_cases h2 : s.app_exec = none <;>
    simp [h1, h2, error_at_eof]

/-- C1 (amended): on a file made of blank lines, comment lines, group headers
in whose text every `#` is escaped, and lines `K=V`, `read_desktop_file`
returns, with name the `V` of the last `Name=` line (unset when there is
none), exec the `V` of the last `Exec=` line (unset when there is none) and
comment the `V` of the last `Comment=` line when there is one and what the
slot held before the call when there is none; so a line with another key,
`name` for instance, changes none of the three. -/
theorem read_desktop_file_wellformed (ls : List Line) (hwf : ls.all Line.wf = true) (n : Nat)
    (fs : List Int → Option (List Int)) (fname : List Int) (s : Slots)
    (hext : has_extension fname (cstr ".desktop") ≠ 0) (hfs : fs fname = some (content ls))
    (hn : 2 * (content ls).length + 21 ≤ n) :
    ∃ o, read_desktop_file n fs fname s = some o ∧
      o.slots.app_name = last_value (cstr "Name") ls ∧
      o.slots.app_exec = last_value (cstr "Exec") ls ∧
      o.slots.app_descr = (match last_value (cstr "Comment") ls with
        | some v => some v
        | none => s.app_descr) := by
  obtain ⟨j, rfl⟩ : ∃ j, n = j + 2 := ⟨n - 2, by omega⟩
  have hwf' : ∀ l ∈ ls, l.wf = true := by simpa [List.all_eq_true] using hwf
  obtain ⟨D', h, hfp, _, _⟩ := read_desktop_file_loop_lines ls.length ls (le_refl _) hwf' []
    Gap.nil (j + 2) fname 1 [] true { s with app_name := none, app_exec := none }
    (by simp only [List.nil_append]; omega)
  rw [List.nil_append] at h
  obtain ⟨fp, e, fn, ln, er, op⟩ := D'
  simp only [] at hfp
  subst hfp
  have hrun : ∃ er' op', read_desktop_file (j + 2) fs fname s
      = some ⟨adopt_lines { s with app_name := none, app_exec := none } ls, er', op'⟩ := by
    unfold read_desktop_file
    rw [if_neg hext, hfs]
    simp only []
    rw [h]
    simp only []
    rw [missing_fields_at_eof]
    exact ⟨_, _, rfl⟩
  obtain ⟨er', op', hrun⟩ := hrun
  refine ⟨_, hrun, ?_, ?_, ?_⟩
  · rw [adopt_lines_app_name]
    cases last_value (cstr "Name") ls <;> rfl
  · rw [adopt_lines_app_exec]
    cases last_value (cstr "Exec") ls <;> rfl
  · rw [adopt_lines_app_descr]

theorem read_desktop_file_wellformed_witness :
    ∃ o, read_desktop_file 200 (fun _ => some (content
          [Line.comment (cstr " comment"), Line.kv (cstr "Name") (cstr "Foo"),
           Line.kv (cstr "name") (cstr "other"), Line.blank [],
           Line.kv (cstr "Comment") (cstr "A tool"), Line.group (cstr "Desktop\\ \\#Entry\\"),
           Line.kv (cstr "Exec") (cstr "foo --flag")])) (cstr "a.desktop")
          ⟨some [1], some [2], some [3]⟩ = some o ∧
      o.slots.app_name = last_value (cstr "Name")
          [Line.comment (cstr " comment"), Line.kv (cstr "Name") (cstr "Foo"),
           Line.kv (cstr "name") (cstr "other"), Line.blank [],
           Line.kv (cstr "Comment") (cstr "A tool"), Line.group (cstr "Desktop\\ \\#Entry\\"),
           Line.kv (cstr "Exec") (cstr "foo --flag")] ∧
      o.slots.app_exec = last_value (cstr "Exec")
          [Line.comment (cstr " comment"), Line.kv (cstr "Name") (cstr "Foo"),
           Line.kv (cstr "name") (cstr "other"), Line.blank [],
           Line.kv (cstr "Comment") (cstr "A tool"), Line.group (cstr "Desktop\\ \\#Entry\\"),
           Line.kv (cstr "Exec") (cstr "foo --flag")] ∧
      o.slots.app_descr = (match last_value (cstr "Comment")
          [Line.comment (cstr " comment"), Line.kv (cstr "Name") (cstr "Foo"),
           Line.kv (cstr "name") (cstr "other"), Line.blank [],
           Line.kv (cstr "Comment") (cstr "A tool"), Line.group (cstr "Desktop\\ \\#Entry\\"),
           Line.kv (cstr "Exec") (cstr "foo --flag")] with
        | some v => some v
        | none => (⟨some [1], some [2], some [3]⟩ : Slots).app_descr) :=
  read_desktop_file_wellformed _ (by decide) 200 _ (cstr "a.desktop") _ (by decide) rfl
    (by decide)

/-- C1 as stated fails: with a `#` in a group-header text the header swallows
the lines up to the next `]`. On `[#]`, `Name=A`, `[x]`, `Exec=B` (lines that
the claim allows, the last `Name=` line having the value `A`) the loader
returns with the name unset. -/
theorem read_desktop_file_hash_in_header :
    ([Line.group (cstr "#"), Line.kv (cstr "Name") (cstr "A"), Line.group (cstr "x"),
        Line.kv (cstr "Exec") (cstr "B")].all Line.wf_spec = true) ∧
    last_value (cstr "Name") [Line.group (cstr "#"), Line.kv (cstr "Name") (cstr "A"),
        Line.group (cstr "x"), Line.kv (cstr "Exec") (cstr "B")] = some (cstr "A") ∧
    read_desktop_file 100
        (fun _ => some (content [Line.group (cstr "#"), Line.kv (cstr "Name") (cstr "A"),
          Line.group (cstr "x"), Line.kv (cstr "Exec") (cstr "B")]))
        (cstr "a.desktop") ⟨none, none, none⟩
      = some ⟨⟨none, none, some (cstr "B")⟩,
          [Diag.error (cstr "a.desktop") 5 Msg.no_name], true⟩ := by
  decide!

/-! ## No diagnostic -/

theorem last_value_of_mem (key v : List Int) : ∀ (ls : List Line),
    Line.kv key v ∈ ls → last_value key ls ≠ none := by
  intro ls
  induction ls with
  | nil => intro h; simp at h
  | cons l ls ih =>
    intro h
    rcases List.mem_cons.1 h with h1 | h1
    · subst h1
      simp only [last_value]
      cases last_value key ls <;> simp
    · have := ih h1
      cases l with
      | kv k w =>
        simp only [last_value]
        cases hlv : last_value key ls with
        | none => exact absurd hlv this
        | some w' => simp
      | blank ws => simpa [last_value] using this
      | comment t => simpa [last_value] using this
      | group t => simpa [last_value] using this

theorem ends_with_pair_append (k v : List Int) : ∀ (pre : List Line),
    ends_with_pair (pre ++ [Line.kv k v]) = true := by
  intro pre
  induction pre with
  | nil => simp [ends_with_pair]
  | cons l pre ih =>
    cases l with
    | kv k' w => simp [ends_with_pair, ih]
    | blank ws => simpa [ends_with_pair] using ih
    | comment t => simpa [ends_with_pair] using ih
    | group t => simpa [ends_with_pair] using ih

/-- C5 (amended): on a file made only of group headers in whose text every `#`
is escaped and of well-formed lines `Key=Value`, in any order that ends with a
`Key=Value` line, with at least one `Name=` line and one `Exec=` line,
`read_desktop_file` returns and has logged nothing: no syntax error and no
missing field. -/
theorem read_desktop_file_no_diagnostics (pre : List Line) (k v : List Int)
    (hwf : ∀ l ∈ pre ++ [Line.kv k v], l.wf = true ∧ l.is_gap = false)
    (hname : ∃ w, Line.kv (cstr "Name") w ∈ pre ++ [Line.kv k v])
    (hexec : ∃ w, Line.kv (cstr "Exec") w ∈ pre ++ [Line.kv k v])
    (n : Nat) (fs : List Int → Option (List Int)) (fname : List Int) (s : Slots)
    (hext : has_extension fname (cstr ".desktop") ≠ 0)
    (hfs : fs fname = some (content (pre ++ [Line.kv k v])))
    (hn : 2 * (content (pre ++ [Line.kv k v])).length + 21 ≤ n) :
    ∃ o, read_desktop_file n fs fname s = some o ∧ o.err = [] := by
  obtain ⟨j, rfl⟩ : ∃ j, n = j + 2 := ⟨n - 2, by omega⟩
  obtain ⟨D', h, _, _, _, herr⟩ := read_desktop_file_loop_lines (pre ++ [Line.kv k v]).length
    (pre ++ [Line.kv k v]) (le_refl _) (fun l hl => (hwf l hl).1) []
    Gap.nil (j + 2) fname 1 [] true { s with app_name := none, app_exec := none }
    (by simp only [List.nil_append]; omega)
  rw [List.nil_append] at h
  have herr' := herr (ends_with_pair_append k v pre)
  obtain ⟨wn, hwn⟩ := hname
  obtain ⟨we, hwe⟩ := hexec
  have hN : (adopt_lines { s with app_name := none, app_exec := none }
      (pre ++ [Line.kv k v])).app_name ≠ none := by
    rw [adopt_lines_app_name]
    have := last_value_of_mem (cstr "Name") wn _ hwn
    cases hlv : last_value (cstr "Name") (pre ++ [Line.kv k v]) with
    | none => exact absurd hlv this
    | some w => simp
  have hE : (adopt_lines { s with app_name := none, app_exec := none }
      (pre ++ [Line.kv k v])).app_exec ≠ none := by
    rw [adopt_lines_app_exec]
    have := last_value_of_mem (cstr "Exec") we _ hwe
    cases hlv : last_value (cstr "Exec") (pre ++ [Line.kv k v]) with
    | none => exact absurd hlv this
    | some w => simp
  refine ⟨⟨adopt_lines { s with app_name := none, app_exec := none } (pre ++ [Line.kv k v]),
    [], D'.is_open⟩, ?_, rfl⟩
  unfold read_desktop_file
  rw [if_neg hext, hfs]
  simp only []
  rw [h]
  simp only [missing_fields, if_neg hN, if_neg hE, herr']

theorem read_desktop_file_no_diagnostics_witness :
    ∃ o, read_desktop_file 200
        (fun _ => some (content ([Line.group (cstr "Desktop Entry"),
          Line.kv (cstr "Name") (cstr "Test App")] ++
          [Line.kv (cstr "Exec") (cstr "/usr/bin/test")])))
        (cstr "a.desktop") ⟨none, none, none⟩ = some o ∧ o.err = [] :=
  read_desktop_file_no_diagnostics
    [Line.group (cstr "Desktop Entry"), Line.kv (cstr "Name") (cstr "Test App")]
    (cstr "Exec") (cstr "/usr/bin/test") (by decide) ⟨cstr "Test App", by decide⟩
    ⟨cstr "/usr/bin/test", by decide⟩ 200 _ (cstr "a.desktop") ⟨none, none, none⟩
    (by decide) rfl (by decide)

/-- C5 as stated fails, in two ways. A file of well-formed lines with a
`Name=` and an `Exec=` line whose last line is a group header: after the
header the loop asks for one more line, finds the end of the file where a key
should start, and logs `Expected key or group name`. And a `#` in a header
text hides the closing `]`: on `Exec=E`, `[a#b]`, `Name=N`, `[y]`, `Comment=C`
the header swallows the `Name=` line and the loader logs the missing name. -/
theorem read_desktop_file_header_diagnostics :
    (([Line.kv (cstr "Name") (cstr "A"), Line.kv (cstr "Exec") (cstr "B"),
        Line.group (cstr "g")].all (fun l => l.wf_spec && !l.is_gap) = true) ∧
      read_desktop_file 100
        (fun _ => some (content [Line.kv (cstr "Name") (cstr "A"),
          Line.kv (cstr "Exec") (cstr "B"), Line.group (cstr "g")]))
        (cstr "a.desktop") ⟨none, none, none⟩
      = some ⟨⟨some (cstr "A"), none, some (cstr "B")⟩,
          [Diag.error (cstr "a.desktop") 4 Msg.expected_key], true⟩) ∧
    (([Line.kv (cstr "Exec") (cstr "E"), Line.group (cstr "a#b"),
        Line.kv (cstr "Name") (cstr "N"), Line.group (cstr "y"),
        Line.kv (cstr "Comment") (cstr "C")].all (fun l => l.wf_spec && !l.is_gap) = true) ∧
      read_desktop_file 100
        (fun _ => some (content [Line.kv (cstr "Exec") (cstr "E"), Line.group (cstr "a#b"),
          Line.kv (cstr "Name") (cstr "N"), Line.group (cstr "y"),
          Line.kv (cstr "Comment") (cstr "C")]))
        (cstr "a.desktop") ⟨none, none, none⟩
      = some ⟨⟨none, some (cstr "C"), some (cstr "E")⟩,
          [Diag.error (cstr "a.desktop") 6 Msg.no_name], true⟩) := by
  decide!

/-! ## What every step of the parse keeps -/

theorem Ext.ext_refl (D : df_t) : Ext D D := ⟨id, rfl, rfl, [], by simp, by simp⟩

theorem Ext.ext_trans {D1 D2 D3 : df_t} (h1 : Ext D1 D2) (h2 : Ext D2 D3) : Ext D1 D3 := by
  obtain ⟨i1, f1, o1, es1, e1, s1⟩ := h1
  obtain ⟨i2, f2, o2, es2, e2, s2⟩ := h2
  refine ⟨fun h => i2 (i1 h), f2.trans f1, o2.trans o1, es1 ++ es2, ?_, ?_⟩
  · rw [e2, e1, List.append_assoc]
  · intro d hd
    rcases List.mem_append.1 hd with h | h
    · exact s1 d h
    · exact s2 d h

theorem Ext.consume (c : Int) (R R' : List Int) (e e' : Bool) (fn : List Int) (ln ln' : Nat)
    (er : List Diag) (op : Bool) : Ext ⟨c :: R, e, fn, ln, er, op⟩ ⟨R', e && e', fn, ln', er, op⟩ := by
  refine ⟨?_, rfl, rfl, [], by simp, by simp⟩
  intro hI hf
  simp only [Bool.and_eq_true] at hf
  exact absurd (hI hf.1) (by simp)

theorem Ext.at_eof (D : df_t) (e : Bool) (ln : Nat) : Ext D ⟨[], e, D.fname, ln, D.err, D.is_open⟩ :=
  ⟨fun _ _ => rfl, rfl, rfl, [], by simp, by simp⟩

theorem Ext.ungetc (c : Int) (D : df_t) : Ext D (ungetc c D) := by
  unfold Wm.ungetc
  split
  · exact Ext.ext_refl D
  · exact ⟨fun _ h => by simp at h, rfl, rfl, [], by simp, by simp⟩

/-- The three functions of the character stream keep the invariant, the file
name and `stderr`. -/
theorem stream_ext (n : Nat) :
    (∀ D c D', next_char n D = some (c, D') → Ext D D') ∧
    (∀ D D', skip_to_next_line n D = some D' → Ext D D') ∧
    (∀ c D D', skip_to_next_line_loop n c D = some D' → Ext D D') := by
  induction n with
  | zero =>
    refine ⟨?_, ?_, ?_⟩
    · intro D c D' h; simp [next_char] at h
    · intro D D' h; simp [skip_to_next_line] at h
    · intro c D D' h; simp [skip_to_next_line_loop] at h
  | succ n ih =>
    obtain ⟨ihA, ihB, ihC⟩ := ih
    refine ⟨?_, ?_, ?_⟩
    · intro D c D' h
      obtain ⟨fp, e, fn, ln, er, op⟩ := D
      cases fp with
      | nil =>
        rw [next_char_eof] at h
        cases h
        exact Ext.at_eof ⟨[], e, fn, ln, er, op⟩ true ln
      | cons x R =>
        by_cases h35 : x = 35
        · subst h35
          rw [next_char_hash] at h
          cases h2 : skip_to_next_line n ⟨R, e, fn, ln, er, op⟩ with
          | none => rw [h2] at h; cases h
          | some D2 =>
            rw [h2] at h
            cases h
            have := Ext.consume 35 R R e true fn ln ln er op
            rw [Bool.and_true] at this
            exact this.ext_trans (ihB _ _ h2)
        · by_cases h92 : x = 92
          · subst h92
            cases R with
            | nil =>
              rw [next_char_escape_eof] at h
              cases h
              exact Ext.at_eof ⟨[92], e, fn, ln, er, op⟩ true ln
            | cons b R' =>
              rw [next_char_escape] at h
              have := Ext.consume 92 (b :: R') R' e true fn ln ln er op
              rw [Bool.and_true] at this
              cases h
              exact this
          · rw [next_char_simple n x R e fn ln er op h35 h92] at h
            have := Ext.consume x R R e true fn ln (if x = 10 then ln + 1 else ln) er op
            rw [Bool.and_true] at this
            cases h
            exact this
    · intro D D' h
      rw [skip_to_next_line_succ] at h
      obtain ⟨⟨c1, D1⟩, h1, h2⟩ := Option.bind_eq_some.1 h
      exact (ihA _ _ _ h1).ext_trans (ihC _ _ _ h2)
    · intro c D D' h
      rw [skip_to_next_line_loop_succ] at h
      by_cases hc : c ≠ 10 ∧ D.feof = false
      · rw [if_pos hc] at h
        obtain ⟨⟨c1, D1⟩, h1, h2⟩ := Option.bind_eq_some.1 h
        exact (ihA _ _ _ h1).ext_trans (ihC _ _ _ h2)
      · rw [if_neg hc] at h
        cases h
        exact Ext.ext_refl D

theorem skip_whitespace_loop_ext (n : Nat) : ∀ (sn : Bool) (c : Int) (D : df_t) (c' : Int)
    (D' : df_t), skip_whitespace_loop n sn c D = some (c', D') → Ext D D' := by
  induction n with
  | zero => intro sn c D c' D' h; simp [skip_whitespace_loop] at h
  | succ n ih =>
    intro sn c D c' D' h
    rw [skip_whitespace_loop_succ] at h
    by_cases hc : (if sn then isspace c else (isspace c && c != 10)) = true
    · rw [if_pos hc] at h
      obtain ⟨⟨c1, D1⟩, h1, h2⟩ := Option.bind_eq_some.1 h
      exact ((stream_ext n).1 _ _ _ h1).ext_trans (ih _ _ _ _ _ h2)
    · rw [if_neg hc] at h
      cases h
      exact Ext.ext_refl D

theorem skip_whitespace_ext (n : Nat) (sn : Bool) (D : df_t) (c' : Int) (D' : df_t)
    (h : skip_whitespace n D sn = some (c', D')) : Ext D D' := by
  rw [skip_whitespace_eq_loop] at h
  exact skip_whitespace_loop_ext n sn 32 D c' D' h

theorem keyname_loop_ext (n : Nat) : ∀ (key : List Int) (c : Int) (D : df_t) (key' : List Int)
    (c' : Int) (D' : df_t), keyname_loop n key c D = some (key', c', D') → Ext D D' := by
  induction n with
  | zero => intro key c D key' c' D' h; simp [keyname_loop] at h
  | succ n ih =>
    intro key c D key' c' D' h
    rw [keyname_loop_succ] at h
    by_cases hc : key.length < 64 ∧ iskeychar c = true
    · rw [if_pos hc] at h
      obtain ⟨⟨c1, D1⟩, h1, h2⟩ := Option.bind_eq_some.1 h
      exact ((stream_ext n).1 _ _ _ h1).ext_trans (ih _ _ _ _ _ _ h2)
    · rw [if_neg hc] at h
      cases h
      exact Ext.ext_refl D

theorem keyname_ext (n : Nat) (D : df_t) (c : Int) (k : Option (List Int)) (D' : df_t)
    (h : keyname n D c = some (k, D')) : Ext D D' := by
  unfold keyname at h
  cases h1 : keyname_loop n [] c D with
  | none => rw [h1] at h; cases h
  | some r =>
    obtain ⟨key, c1, D1⟩ := r
    rw [h1] at h
    simp only [] at h
    have hD : D' = ungetc c1 D1 := by
      split at h <;> (cases h; rfl)
    rw [hD]
    exact (keyname_loop_ext n _ _ _ _ _ _ h1).ext_trans (Ext.ungetc c1 D1)

theorem read_groupname_loop_ext (n : Nat) : ∀ (c : Int) (D D' : df_t),
    read_groupname_loop n c D = some D' → Ext D D' := by
  induction n with
  | zero => intro c D D' h; simp [read_groupname_loop] at h
  | succ n ih =>
    intro c D D' h
    rw [read_groupname_loop_succ] at h
    by_cases hc : c ≠ 93
    · rw [if_pos hc] at h
      obtain ⟨⟨c1, D1⟩, h1, h2⟩ := Option.bind_eq_some.1 h
      exact ((stream_ext n).1 _ _ _ h1).ext_trans (ih _ _ _ h2)
    · rw [if_neg hc] at h
      cases h
      exact Ext.ext_refl D

theorem read_rest_of_line_loop_ext (n : Nat) : ∀ (str : List Int) (c : Int) (D : df_t)
    (str' : List Int) (D' : df_t), read_rest_of_line_loop n str c D = some (str', D') →
    Ext D D' := by
  induction n with
  | zero => intro str c D str' D' h; simp [read_rest_of_line_loop] at h
  | succ n ih =>
    intro str c D str' D' h
    rw [read_rest_of_line_loop_succ] at h
    by_cases hc : str.length < 256 ∧ c ≠ 10 ∧ D.feof = false
    · rw [if_pos hc] at h
      by_cases hl : (str ++ [c]).length ≥ 256
      · rw [if_pos hl] at h
        cases h2 : skip_to_next_line n D with
        | none => rw [h2] at h; cases h
        | some D2 =>
          rw [h2] at h
          cases h
          exact (stream_ext n).2.1 _ _ h2
      · rw [if_neg hl] at h
        obtain ⟨⟨c1, D1⟩, h1, h2⟩ := Option.bind_eq_some.1 h
        exact ((stream_ext n).1 _ _ _ h1).ext_trans (ih _ _ _ _ _ h2)
    · rw [if_neg hc] at h
      cases h
      exact Ext.ext_refl D

theorem read_rest_of_line_ext (n : Nat) (D : df_t) (c : Int) (v : List Int) (D' : df_t)
    (h : read_rest_of_line n D c = some (v, D')) : Ext D D' := by
  unfold read_rest_of_line at h
  cases h1 : read_rest_of_line_loop n [] c D with
  | none => rw [h1] at h; cases h
  | some r =>
    obtain ⟨str, D1⟩ := r
    rw [h1] at h
    cases h
    exact read_rest_of_line_loop_ext n _ _ _ _ _ h1

theorem error_ext (n : Nat) (D D' : df_t) (msg : Msg) (hm : is_parse_error (Diag.error D.fname D.lineno msg) = true)
    (h : error n D msg = some D') : Ext D D' := by
  unfold error at h
  have h1 : Ext D { D with err := D.err ++ [Diag.error D.fname D.lineno msg] } :=
    ⟨fun hI => hI, rfl, rfl, [Diag.error D.fname D.lineno msg], rfl, by simpa using hm⟩
  exact h1.ext_trans ((stream_ext n).2.1 _ _ h)

theorem read_line_ext (n : Nat) (D : df_t) (k v : Option (List Int)) (D' : df_t)
    (h : read_line n D = some (k, v, D')) : Ext D D' := by
  unfold read_line at h
  cases h1 : skip_whitespace n D true with
  | none => rw [h1] at h; cases h
  | some r1 =>
    obtain ⟨c, D1⟩ := r1
    rw [h1] at h
    simp only [] at h
    have e1 := skip_whitespace_ext n true D c D1 h1
    by_cases hc : c = 91
    · rw [if_pos hc] at h
      cases h2 : read_groupname n D1 with
      | none => rw [h2] at h; cases h
      | some D2 =>
        rw [h2] at h
        cases h
        exact e1.ext_trans (read_groupname_loop_ext n 91 D1 _ h2)
    · rw [if_neg hc] at h
      cases h2 : keyname n D1 c with
      | none => rw [h2] at h; cases h
      | some r2 =>
        obtain ⟨key, D2⟩ := r2
        rw [h2] at h
        have e2 := e1.ext_trans (keyname_ext n D1 c key D2 h2)
        cases key with
        | none =>
          simp only [] at h
          cases h3 : error n D2 Msg.expected_key with
          | none => rw [h3] at h; cases h
          | some D3 =>
            rw [h3] at h
            cases h
            exact e2.ext_trans (error_ext n D2 _ Msg.expected_key rfl h3)
        | some key =>
          simp only [] at h
          cases h3 : skip_whitespace n D2 false with
          | none => rw [h3] at h; cases h
          | some r3 =>
            obtain ⟨c1, D3⟩ := r3
            rw [h3] at h
            simp only [] at h
            have e3 := e2.ext_trans (skip_whitespace_ext n false D2 c1 D3 h3)
            by_cases hc1 : c1 ≠ 61
            · rw [if_pos hc1] at h
              cases h4 : error n D3 Msg.expected_eq with
              | none => rw [h4] at h; cases h
              | some D4 =>
                rw [h4] at h
                cases h
                exact e3.ext_trans (error_ext n D3 _ Msg.expected_eq rfl h4)
            · rw [if_neg hc1] at h
              cases h4 : skip_whitespace n D3 false with
              | none => rw [h4] at h; cases h
              | some r4 =>
                obtain ⟨c2, D4⟩ := r4
                rw [h4] at h
                simp only [] at h
                have e4 := e3.ext_trans (skip_whitespace_ext n false D3 c2 D4 h4)
                cases h5 : read_rest_of_line n D4 c2 with
                | none => rw [h5] at h; cases h
                | some r5 =>
                  obtain ⟨val, D5⟩ := r5
                  rw [h5] at h
                  simp only [] at h
                  have e5 := e4.ext_trans (read_rest_of_line_ext n D4 c2 val D5 h5)
                  cases h6 : skip_whitespace n D5 true with
                  | none => rw [h6] at h; cases h
                  | some r6 =>
                    obtain ⟨c3, D6⟩ := r6
                    rw [h6] at h
                    cases h
                    exact (e5.ext_trans (skip_whitespace_ext n true D5 c3 D6 h6)).ext_trans
                      (Ext.ungetc c3 D6)

/-- The loop of `read_desktop_file` returns only at end-of-file, and it keeps
the stream invariant, the file name, and logs syntax errors only. -/
theorem read_desktop_file_loop_ext (n : Nat) : ∀ (D : df_t) (s : Slots) (D' : df_t)
    (s' : Slots), read_desktop_file_loop n D s = some (D', s') →
    Ext D D' ∧ D'.feof = true := by
  induction n with
  | zero => intro D s D' s' h; simp [read_desktop_file_loop] at h
  | succ n ih =>
    intro D s D' s' h
    rw [read_desktop_file_loop_succ] at h
    by_cases hf : D.feof = false
    · rw [if_pos hf] at h
      obtain ⟨⟨k, v, D1⟩, h1, h2⟩ := Option.bind_eq_some.1 h
      obtain ⟨e2, hf2⟩ := ih _ _ _ _ h2
      exact ⟨(read_line_ext n D k v D1 h1).ext_trans e2, hf2⟩
    · rw [if_neg hf] at h
      cases h
      exact ⟨Ext.ext_refl D, by simpa using hf⟩

theorem read_desktop_file_loop_fuel (n : Nat) (D : df_t) (s : Slots) (r : df_t × Slots)
    (hf : D.feof = false) (h : read_desktop_file_loop n D s = some r) : 2 ≤ n := by
  rcases n with _ | _ | j
  · simp [read_desktop_file_loop] at h
  · rw [read_desktop_file_loop_succ, if_pos hf] at h
    simp [read_line, skip_whitespace] at h
  · omega

/-! ## The checks after the loop, and the slots before it -/

theorem is_parse_error_not_missing (d : Diag) (h : is_parse_error d = true) :
    has_msg Msg.no_name d = false ∧ has_msg Msg.no_exec d = false := by
  cases d with
  | perror f => simp [is_parse_error, has_msg] at h
  | error f l m => cases m <;> simp [is_parse_error, has_msg] at h ⊢

/-- C8: when the loop of `read_desktop_file` has parsed the file to end-of-file
(it returned the state `D1` and the slots `s2`), the call returns with these
slots, and after the diagnostics of the parse, which are syntax errors only, it
has logged exactly: one `Does not have a 'Name=' field` line if the name slot is
unset and none otherwise, then one `Does not have a 'Exec=' field` line if the
exec slot is unset and none otherwise; nothing is logged for the comment slot. -/
theorem missing_field_diagnostics (n : Nat) (fs : List Int → Option (List Int))
    (fname content : List Int) (s : Slots) (D1 : df_t) (s2 : Slots)
    (hext : has_extension fname (cstr ".desktop") ≠ 0) (hfs : fs fname = some content)
    (hloop : read_desktop_file_loop n ⟨content, false, fname, 1, [], true⟩
      { s with app_name := none, app_exec := none } = some (D1, s2)) :
    ∃ o, read_desktop_file n fs fname s = some o ∧ o.slots = s2 ∧
      o.err = D1.err ++
        ((if s2.app_name = none then [Diag.error fname D1.lineno Msg.no_name] else []) ++
         (if s2.app_exec = none then [Diag.error fname D1.lineno Msg.no_exec] else [])) ∧
      (∀ d ∈ D1.err, is_parse_error d = true) ∧
      o.err.countP (has_msg Msg.no_name) = (if s2.app_name = none then 1 else 0) ∧
      o.err.countP (has_msg Msg.no_exec) = (if s2.app_exec = none then 1 else 0) := by
  obtain ⟨hE, hf⟩ := read_desktop_file_loop_ext n _ _ _ _ hloop
  have hn := read_desktop_file_loop_fuel n _ _ _ rfl hloop
  obtain ⟨j, rfl⟩ : ∃ j, n = j + 2 := ⟨n - 2, by omega⟩
  obtain ⟨hI, hfn, hop, es, hes, hsyn⟩ := hE
  have hfp := hI (fun h => by simp at h) hf
  obtain ⟨fp, e, fn, ln, er, op⟩ := D1
  simp only [] at hf hfn hes hfp hop
  subst hf hfn hfp hop
  simp only [List.nil_append] at hes
  subst hes
  have hrun : read_desktop_file (j + 2) fs fn s = some ⟨s2,
      er ++ ((if s2.app_name = none then [Diag.error fn ln Msg.no_name] else []) ++
        (if s2.app_exec = none then [Diag.error fn ln Msg.no_exec] else [])), true⟩ := by
    unfold read_desktop_file
    rw [if_neg hext, hfs]
    simp only []
    rw [hloop]
    simp only []
    rw [missing_fields_at_eof]
  have h0a : er.countP (has_msg Msg.no_name) = 0 :=
    List.countP_eq_zero.2 (fun d hd => by simp [(is_parse_error_not_missing d (hsyn d hd)).1])
  have h0b : er.countP (has_msg Msg.no_exec) = 0 :=
    List.countP_eq_zero.2 (fun d hd => by simp [(is_parse_error_not_missing d (hsyn d hd)).2])
  refine ⟨_, hrun, rfl, rfl, hsyn, ?_, ?_⟩
  · simp only [List.countP_append, h0a]
    by_cases h1 : s2.app_name = none <;> by_cases h2 : s2.app_exec = none <;>
      simp [h1, h2, has_msg, List.countP_cons, List.countP_nil]
  · simp only [List.countP_append, h0b]
    by_cases h1 : s2.app_name = none <;> by_cases h2 : s2.app_exec = none <;>
      simp [h1, h2, has_msg, List.countP_cons, List.countP_nil]

theorem missing_field_diagnostics_witness :
    ∃ o, read_desktop_file 50 (fun _ => some (cstr "Name=Bare\n")) (cstr "a.desktop")
        ⟨none, none, none⟩ = some o ∧
      o.slots = ⟨some (cstr "Bare"), none, none⟩ ∧
      o.err = [Diag.error (cstr "a.desktop") 2 Msg.no_exec] ∧
      o.err.countP (has_msg Msg.no_name) = 0 ∧ o.err.countP (has_msg Msg.no_exec) = 1 := by
  obtain ⟨o, h1, h2, h3, _, h5, h6⟩ :=
    missing_field_diagnostics 50 (fun _ => some (cstr "Name=Bare\n")) (cstr "a.desktop")
      (cstr "Name=Bare\n") ⟨none, none, none⟩ ⟨[], true, cstr "a.desktop", 2, [], true⟩
      ⟨some (cstr "Bare"), none, none⟩ (by decide) rfl (by decide!)
  exact ⟨o, h1, h2, h3, h5, h6⟩

/-! ## The slots before the parse -/

theorem adopt_agree (k v : Option (List Int)) (s t : Slots)
    (h1 : s.app_name = t.app_name) (h2 : s.app_exec = t.app_exec) :
    (adopt k v s).app_name = (adopt k v t).app_name ∧
      (adopt k v s).app_exec = (adopt k v t).app_exec := by
  cases k with
  | none => exact ⟨h1, h2⟩
  | some k =>
    cases v with
    | none => exact ⟨h1, h2⟩
    | some v =>
      rw [adopt_app_name, adopt_app_name, adopt_app_exec, adopt_app_exec, h1, h2]
      exact ⟨rfl, rfl⟩

/-- The loop of `read_desktop_file` takes the same course whatever the slots
hold, and the name and exec slots it returns depend on the comment slot and on
no earlier content. -/
theorem read_desktop_file_loop_agree (n : Nat) : ∀ (D : df_t) (s t : Slots),
    s.app_name = t.app_name → s.app_exec = t.app_exec →
    (read_desktop_file_loop n D s).map (fun r => (r.1, r.2.app_name, r.2.app_exec))
      = (read_desktop_file_loop n D t).map (fun r => (r.1, r.2.app_name, r.2.app_exec)) := by
  induction n with
  | zero => intro D s t _ _; rfl
  | succ n ih =>
    intro D s t h1 h2
    rw [read_desktop_file_loop_succ, read_desktop_file_loop_succ]
    by_cases hf : D.feof = false
    · rw [if_pos hf, if_pos hf]
      cases read_line n D with
      | none => rfl
      | some r =>
        simp only [Option.bind]
        exact ih _ _ _ (adopt_agree r.1 r.2.1 s t h1 h2).1 (adopt_agree r.1 r.2.1 s t h1 h2).2
    · rw [if_neg hf, if_neg hf]
      simp [h1, h2]

theorem read_desktop_file_opened (n : Nat) (fs : List Int → Option (List Int))
    (fname content : List Int) (s : Slots) (h : has_extension fname (cstr ".desktop") ≠ 0)
    (hc : fs fname = some content) :
    read_desktop_file n fs fname s
      = (read_desktop_file_loop n ⟨content, false, fname, 1, [], true⟩
          { s with app_name := none, app_exec := none }).bind
          (fun r => (missing_fields n r.1 r.2).map (fun D2 => ⟨r.2, D2.err, D2.is_open⟩)) := by
  unfold read_desktop_file
  rw [if_neg h, hc]
  simp only []
  cases read_desktop_file_loop n ⟨content, false, fname, 1, [], true⟩
      { s with app_name := none, app_exec := none } with
  | none => rfl
  | some r =>
    simp only [Option.bind]
    cases missing_fields n r.1 r.2 <;> rfl

/-- What the code does with the slots it is passed: a path without the
`.desktop` suffix and a file that cannot be opened leave the three slots as the
caller passed them (the first with no diagnostic, the second with the one of
`perror`); when the file is opened, the name and exec slots on return and the
diagnostics are the same for every prior content of the three slots. -/
theorem read_desktop_file_prior_slots (n : Nat) (fs : List Int → Option (List Int))
    (fname : List Int) (s : Slots) :
    (has_extension fname (cstr ".desktop") = 0 →
      read_desktop_file n fs fname s = some ⟨s, [], false⟩) ∧
    (has_extension fname (cstr ".desktop") ≠ 0 → fs fname = none →
      read_desktop_file n fs fname s = some ⟨s, [Diag.perror fname], false⟩) ∧
    (has_extension fname (cstr ".desktop") ≠ 0 → fs fname ≠ none → ∀ t : Slots,
      (read_desktop_file n fs fname s).map (fun o => (o.slots.app_name, o.slots.app_exec, o.err))
        = (read_desktop_file n fs fname t).map
            (fun o => (o.slots.app_name, o.slots.app_exec, o.err))) := by
  refine ⟨?_, ?_, ?_⟩
  · intro h
    unfold read_desktop_file
    rw [if_pos h]
  · intro h hfs
    unfold read_desktop_file
    rw [if_neg h, hfs]
    rfl
  · intro h hfs t
    cases hc : fs fname with
    | none => exact absurd hc hfs
    | some content =>
      have hag := read_desktop_file_loop_agree n ⟨content, false, fname, 1, [], true⟩
        { s with app_name := none, app_exec := none } { t with app_name := none, app_exec := none }
        rfl rfl
      rw [read_desktop_file_opened n fs fname content s h hc,
        read_desktop_file_opened n fs fname content t h hc]
      cases hs : read_desktop_file_loop n ⟨content, false, fname, 1, [], true⟩
          { s with app_name := none, app_exec := none } with
      | none =>
        rw [hs] at hag
        cases ht : read_desktop_file_loop n ⟨content, false, fname, 1, [], true⟩
            { t with app_name := none, app_exec := none } with
        | none => rfl
        | some r => rw [ht] at hag; cases hag
      | some r =>
        rw [hs] at hag
        cases ht : read_desktop_file_loop n ⟨content, false, fname, 1, [], true⟩
            { t with app_name := none, app_exec := none } with
        | none => rw [ht] at hag; cases hag
        | some r' =>
          rw [ht] at hag
          simp only [Option.map, Option.some.injEq, Prod.mk.injEq] at hag
          obtain ⟨hD, hnm, hex⟩ := hag
          obtain ⟨D1, s1⟩ := r
          obtain ⟨D1', s1'⟩ := r'
          simp only [] at hD hnm hex
          subst hD
          have hm : missing_fields n D1 s1 = missing_fields n D1 s1' := by
            unfold missing_fields
            rw [hnm, hex]
          simp only [Option.bind]
          rw [hm]
          cases missing_fields n D1 s1' with
          | none => rfl
          | some D2 => simp [hnm, hex]

/-- C7: the slots do not start unset. On Scenario E, the path `icon.png`, the
call returns at the suffix check, before `*app_name = NULL` and
`*app_exec = NULL`, so three slots that held values before the call still hold
them on return; and after a parse of a file without a `Comment=` line the
comment slot, for which the code has no such assignment, still holds its
earlier value. -/
theorem read_desktop_file_slots_not_reset :
    read_desktop_file 50 (fun _ => some (cstr "Name=A\nExec=B\n")) (cstr "icon.png")
        ⟨some (cstr "n"), some (cstr "c"), some (cstr "e")⟩
      = some ⟨⟨some (cstr "n"), some (cstr "c"), some (cstr "e")⟩, [], false⟩ ∧
    read_desktop_file 50 (fun _ => some (cstr "Name=A\nExec=B\n")) (cstr "a.desktop")
        ⟨some (cstr "n"), some (cstr "c"), some (cstr "e")⟩
      = some ⟨⟨some (cstr "A"), some (cstr "c"), some (cstr "B")⟩, [], true⟩ := by
  decide!

/-! ## Pushback, the two caps, the line counter and the file handle -/

/-- Pushing back a character that is not a newline, `#`, a backslash or `EOF`
makes it the next character `next_char` returns, with the unread input and the
line counter as they were. -/
theorem next_char_ungetc_plain (n : Nat) (c : Int) (D : df_t) (hm1 : c ≠ -1) (h10 : c ≠ 10)
    (h35 : c ≠ 35) (h92 : c ≠ 92) :
    next_char (n + 1) (ungetc c D) = some (c, { D with feof := false }) := by
  obtain ⟨fp, e, fn, ln, er, op⟩ := D
  simp only [ungetc, if_neg hm1]
  exact next_char_plain n c fp false fn ln er op h10 h35 h92

/-- C11: a pushed-back character is read again by `next_char` as a raw byte. A
pushed-back newline (what `keyname` pushes back after a key that ends its line)
is returned with the line counter one higher than before the pushback; `#` and
the backslash, which `next_char` returns for the escapes `\#` and `\\`, are
not returned at all after a pushback: `#` starts a comment and the backslash
an escape, and both consume more input. -/
theorem next_char_after_pushback :
    next_char 5 (ungetc 10 ⟨cstr "x", false, [], 1, [], true⟩)
      = some (10, ⟨cstr "x", false, [], 2, [], true⟩) ∧
    next_char 5 ⟨92 :: 35 :: cstr "ab\ncd", false, [], 1, [], true⟩
      = some (35, ⟨cstr "ab\ncd", false, [], 1, [], true⟩) ∧
    next_char 5 (ungetc 35 ⟨cstr "ab\ncd", false, [], 1, [], true⟩)
      = some (10, ⟨cstr "cd", false, [], 2, [], true⟩) ∧
    next_char 5 ⟨92 :: 92 :: cstr "ab\ncd", false, [], 1, [], true⟩
      = some (92, ⟨cstr "ab\ncd", false, [], 1, [], true⟩) ∧
    next_char 5 (ungetc 92 ⟨cstr "ab\ncd", false, [], 1, [], true⟩)
      = some (97, ⟨cstr "b\ncd", false, [], 1, [], true⟩) := by
  decide!

/-- C12: the loop of `keyname` runs while `i < sizeof(key)`, which is 64, not
63: on a key of 64 qualifying characters (the first one and 63 more) it
gathers all 64, the terminating NUL then going one past the buffer. -/
theorem keyname_gathers_64 :
    keyname 100 ⟨List.replicate 63 97 ++ [61], false, [], 1, [], true⟩ 97
      = some (some (List.replicate 64 97), ⟨[61], false, [], 1, [], true⟩) := by
  decide!

/-- C13: the loop of `read_rest_of_line` runs while `i < sizeof(str)`, which is
256, not 255: on a line of 256 characters it gathers all 256, the terminating
NUL then going one past the buffer. -/
theorem read_rest_of_line_gathers_256 :
    read_rest_of_line 300 ⟨List.replicate 255 97 ++ [10, 98], false, [], 1, [], true⟩ 97
      = some (List.replicate 256 97, ⟨[98], false, [], 2, [], true⟩) := by
  decide!

/-- C14: the newline that `keyname` pushes back is counted a second time. On the
file `BadLine` with its newline, which has one newline byte, the parse ends
with the line counter at 3. -/
theorem lineno_counts_pushed_back_newline :
    (cstr "BadLine\n").count 10 = 1 ∧
    read_desktop_file_loop 50 ⟨cstr "BadLine\n", false, cstr "a.desktop", 1, [], true⟩
        ⟨none, none, none⟩
      = some (⟨[], true, cstr "a.desktop", 3,
          [Diag.error (cstr "a.desktop") 3 Msg.expected_eq], true⟩, ⟨none, none, none⟩) := by
  decide!

/-- C16: an identifier that ends its line is reported two lines too far. On
`Name=X`, `BadLine`, `Exec=Y` the syntax error of the second line is logged
with line 4; the third line is discarded with it, and the call of `read_line`
at end-of-file logs a second syntax error. -/
theorem syntax_error_line_number :
    read_desktop_file 100 (fun _ => some (cstr "Name=X\nBadLine\nExec=Y\n")) (cstr "a.desktop")
        ⟨none, none, none⟩
      = some ⟨⟨some (cstr "X"), none, none⟩,
          [Diag.error (cstr "a.desktop") 4 Msg.expected_eq,
           Diag.error (cstr "a.desktop") 5 Msg.expected_key,
           Diag.error (cstr "a.desktop") 5 Msg.no_exec], true⟩ := by
  decide!

/-- No step of `skip_to_next_line` after the line of `error` touches the
handle. -/
theorem error_handle (n : Nat) (D D' : df_t) (msg : Msg) (h : error n D msg = some D') :
    D'.is_open = D.is_open := by
  unfold error at h
  exact ((stream_ext n).2.1 _ _ h).2.2.1

/-- The two checks after the loop leave the handle as it is. -/
theorem missing_fields_handle (n : Nat) (D D' : df_t) (s : Slots)
    (h : missing_fields n D s = some D') : D'.is_open = D.is_open := by
  unfold missing_fields at h
  have h1 : ∀ D1, (if s.app_name = none then error n D Msg.no_name else some D) = some D1 →
      D1.is_open = D.is_open := by
    intro D1 hD1
    by_cases hn : s.app_name = none
    · rw [if_pos hn] at hD1
      exact error_handle n D D1 _ hD1
    · rw [if_neg hn] at hD1
      cases hD1
      rfl
  cases hc : (if s.app_name = none then error n D Msg.no_name else some D) with
  | none => rw [hc] at h; cases h
  | some D1 =>
    rw [hc] at h
    simp only [] at h
    by_cases he : s.app_exec = none
    · rw [if_pos he] at h
      exact (error_handle n D1 D' _ h).trans (h1 D1 hc)
    · rw [if_neg he] at h
      have hk := h1 D1 hc
      cases h
      exact hk

/-- C15 (amended): the handle is explicit state of the `FILE` in `struct df_t`,
set open by `fopen` and passed through every step of the parse. Whenever
`read_desktop_file` returns, the handle is open on return exactly when the
path has the suffix and `fopen` succeeded: no handle is left open after a
suffix mismatch or an open failure, and the handle that the call opened is
never closed, by no step of the parse and by none of the checks after it. -/
theorem read_desktop_file_handle (n : Nat) (fs : List Int → Option (List Int))
    (fname : List Int) (s : Slots) (o : Outcome) (h : read_desktop_file n fs fname s = some o) :
    o.fp_open = (decide (has_extension fname (cstr ".desktop") ≠ 0) && (fs fname).isSome) := by
  by_cases hext : has_extension fname (cstr ".desktop") = 0
  · rw [(read_desktop_file_prior_slots n fs fname s).1 hext] at h
    cases h
    simp [hext]
  · cases hc : fs fname with
    | none =>
      rw [(read_desktop_file_prior_slots n fs fname s).2.1 hext hc] at h
      cases h
      simp
    | some content =>
      rw [read_desktop_file_opened n fs fname content s hext hc] at h
      obtain ⟨r, hloop, h2⟩ := Option.bind_eq_some.1 h
      obtain ⟨D1, s2⟩ := r
      have hopen : D1.is_open = true := (read_desktop_file_loop_ext n _ _ _ _ hloop).1.2.2.1
      cases hm : missing_fields n D1 s2 with
      | none => rw [hm] at h2; cases h2
      | some D2 =>
        rw [hm] at h2
        cases h2
        have := missing_fields_handle n D1 D2 s2 hm
        simp [hext, this, hopen]

theorem read_desktop_file_handle_witness :
    (⟨⟨some (cstr "A"), none, some (cstr "B")⟩, [], true⟩ : Outcome).fp_open
      = (decide (has_extension (cstr "a.desktop") (cstr ".desktop") ≠ 0) &&
          ((fun _ => some (cstr "Name=A\nExec=B\n")) (cstr "a.desktop")
            : Option (List Int)).isSome) :=
  read_desktop_file_handle 50 (fun _ => some (cstr "Name=A\nExec=B\n")) (cstr "a.desktop")
    ⟨none, none, none⟩ ⟨⟨some (cstr "A"), none, some (cstr "B")⟩, [], true⟩ (by decide!)

/-- C15 as stated fails: after a call that opened the file `Name=A`, `Exec=B`
and parsed it to the end, the handle is still open. -/
theorem read_desktop_file_leaves_file_open :
    read_desktop_file 50 (fun _ => some (cstr "Name=A\nExec=B\n")) (cstr "a.desktop")
        ⟨none, none, none⟩
      = some ⟨⟨some (cstr "A"), none, some (cstr "B")⟩, [], true⟩ := by
  decide!

/-! ## A value closed by a comment -/

theorem endsLine_newline (R : List Int) : EndsLine [10] R 1 := by
  intro k fn ln er op hk
  obtain ⟨j, rfl⟩ : ∃ j, k = j + 1 := ⟨k - 1, by omega⟩
  exact ⟨ln + 1, next_char_newline j R false fn ln er op⟩

theorem endsLine_comment (B R : List Int) (hB : 10 ∉ B) :
    EndsLine (35 :: B ++ [10]) R (2 * B.length + 4) := by
  intro k fn ln er op hk
  obtain ⟨j, rfl⟩ : ∃ j, k = j + 1 := ⟨k - 1, by omega⟩
  obtain ⟨ln', h, _⟩ := skip_to_next_line_loop_line B.length B R (le_refl _) hB j 0 fn ln er op
    (by decide) (by omega)
  refine ⟨ln', ?_⟩
  have e : (35 :: B ++ [10]) ++ R = 35 :: (B ++ 10 :: R) := by simp
  rw [e, next_char_hash, skip_to_next_line_eq_loop j 0 _ (by decide) rfl, h]
  rfl

/-- Skipping spaces and tabs up to the end of the line: `skip_whitespace(D, 0)`
reads the whitespace `w` and the line end `E`, and returns a newline. -/
theorem skip_whitespace_loop_to_end (w : List Int) : ∀ (n : Nat) (c0 : Int) (E R : List Int)
    (n0 : Nat) (fn : List Int) (ln : Nat) (er : List Diag) (op : Bool),
    (∀ x ∈ w, isspace x = true ∧ x ≠ 10) → isspace c0 = true → c0 ≠ 10 →
    EndsLine E R n0 → w.length + n0 + 2 ≤ n →
    ∃ ln', skip_whitespace_loop n false c0 ⟨w ++ (E ++ R), false, fn, ln, er, op⟩
      = some (10, ⟨R, false, fn, ln', er, op⟩) := by
  induction w with
  | nil =>
    intro n c0 E R n0 fn ln er op _ h0 h0' hE hn
    obtain ⟨j, rfl⟩ : ∃ j, n = j + 2 := ⟨n - 2, by omega⟩
    simp only [List.length_nil] at hn
    obtain ⟨ln', h⟩ := hE (j + 1) fn ln er op (by omega)
    refine ⟨ln', ?_⟩
    rw [skip_whitespace_loop_succ, if_pos (by simp [h0, h0']), List.nil_append, h, Option.bind]
    exact skip_whitespace_loop_stop_newline j _
  | cons x w IH =>
    intro n c0 E R n0 fn ln er op hw h0 h0' hE hn
    simp only [List.length_cons] at hn
    obtain ⟨j, rfl⟩ : ∃ j, n = j + 2 := ⟨n - 2, by omega⟩
    have hx := hw x (List.mem_cons_self _ _)
    have hx' := isspace_ne x hx.1
    obtain ⟨ln', h⟩ := IH (j + 1) x E R n0 fn ln er op
      (fun y hy => hw y (List.mem_cons_of_mem _ hy)) hx.1 hx.2 hE (by omega)
    refine ⟨ln', ?_⟩
    rw [skip_whitespace_loop_succ, if_pos (by simp [h0, h0']), List.cons_append,
      next_char_plain _ x _ false fn ln er op hx.2 hx'.1 hx'.2.1, Option.bind]
    exact h

/-- The loop of `read_rest_of_line` on a value `c0 :: V` of at most 255
characters that is closed by the line end `E`. -/
theorem read_rest_of_line_loop_to_end (V : List Int) : ∀ (n : Nat) (acc : List Int) (c0 : Int)
    (E R : List Int) (n0 : Nat) (fn : List Int) (ln : Nat) (er : List Diag) (op : Bool),
    c0 ≠ 10 → (∀ x ∈ V, x ≠ 10 ∧ x ≠ 35 ∧ x ≠ 92) → acc.length + V.length + 1 ≤ 255 →
    EndsLine E R n0 → V.length + n0 + 2 ≤ n →
    ∃ ln', read_rest_of_line_loop n acc c0 ⟨V ++ (E ++ R), false, fn, ln, er, op⟩
      = some (acc ++ c0 :: V, ⟨R, false, fn, ln', er, op⟩) := by
  induction V with
  | nil =>
    intro n acc c0 E R n0 fn ln er op h0 _ hlen hE hn
    obtain ⟨j, rfl⟩ : ∃ j, n = j + 2 := ⟨n - 2, by omega⟩
    simp only [List.length_nil] at hlen hn
    obtain ⟨ln', h⟩ := hE (j + 1) fn ln er op (by omega)
    refine ⟨ln', ?_⟩
    rw [read_rest_of_line_loop_succ, if_pos ⟨by omega, h0, rfl⟩,
      if_neg (by simp only [List.length_append, List.length_singleton]; omega),
      List.nil_append, h, Option.bind, read_rest_of_line_loop_succ,
      if_neg (by simp)]
  | cons x V IH =>
    intro n acc c0 E R n0 fn ln er op h0 hV hlen hE hn
    simp only [List.length_cons] at hn hlen
    obtain ⟨j, rfl⟩ : ∃ j, n = j + 2 := ⟨n - 2, by omega⟩
    have hx := hV x (List.mem_cons_self _ _)
    obtain ⟨ln', h⟩ := IH (j + 1) (acc ++ [c0]) x E R n0 fn ln er op hx.1
      (fun y hy => hV y (List.mem_cons_of_mem _ hy))
      (by simp only [List.length_append, List.length_singleton]; omega) hE (by omega)
    refine ⟨ln', ?_⟩
    rw [read_rest_of_line_loop_succ, if_pos ⟨by omega, h0, rfl⟩,
      if_neg (by simp only [List.length_append, List.length_singleton]; omega),
      List.cons_append, next_char_plain _ x _ false fn ln er op hx.1 hx.2.1 hx.2.2, Option.bind,
      h]
    simp

/-- The first part of `read_line` on a stretch `G` of blank lines and comments
followed by a line `K w1 = tail`: the key and the `=` are read, and `read_line`
goes on with the whitespace after `=`, the value and the look-ahead. -/
theorem read_line_upto_eq {G : List Int} (hG : Gap G) (K w1 tail : List Int) (fn : List Int)
    (ln : Nat) (er : List Diag) (op : Bool) (n : Nat) (hK : wf_key K = true)
    (hw1 : is_blank_run w1 = true) (hn : 2 * G.length + K.length + w1.length + 5 ≤ n) :
    ∃ ln1, read_line n ⟨G ++ (K ++ w1 ++ 61 :: tail), false, fn, ln, er, op⟩
      = (match skip_whitespace n ⟨tail, false, fn, ln1, er, op⟩ false with
         | none => none
         | some (c2, D4) =>
           match read_rest_of_line n D4 c2 with
           | none => none
           | some (val, D5) =>
             match skip_whitespace n D5 true with
             | none => none
             | some (c3, D6) => some (some K, some val, ungetc c3 D6)) := by
  obtain ⟨c0, K', rfl, h0, h91, hK', hlen⟩ := wf_key_cases K hK
  have h0' := iskeychar_ne c0 h0
  simp only [List.length_cons] at hn
  obtain ⟨ln1, hs1⟩ := (skip_whitespace_loop_gap hG n 32 fn ln er op (by decide)
    (by omega)).1 c0 (K' ++ w1 ++ 61 :: tail) h0'.2.2.2.2.2.2 h0'.2.1 h0'.2.2.1
  have hw1' := is_blank_run_mem w1 hw1
  obtain ⟨d, R', hd, hdk, hd35, hd92, hdm1, hd10⟩ : ∃ d R', w1 ++ 61 :: tail = d :: R' ∧
      iskeychar d = false ∧ d ≠ 35 ∧ d ≠ 92 ∧ d ≠ -1 ∧ d ≠ 10 := by
    cases w1 with
    | nil => exact ⟨61, _, rfl, by decide, by decide, by decide, by decide, by decide⟩
    | cons x w =>
      have hx := hw1' x (List.mem_cons_self _ _)
      have hx' := isspace_ne x hx.1
      refine ⟨x, _, rfl, ?_, hx'.1, hx'.2.1, hx'.2.2.1, hx.2⟩
      rw [Bool.eq_false_iff]
      intro hk
      have := (iskeychar_ne x hk).2.2.2.2.2.2
      rw [hx.1] at this
      exact absurd this (by decide)
  have hk := keyname_key K' n c0 d R' fn ln1 er op h0 hK' (by omega) hdk hd35 hd92 hdm1 (by omega)
  rw [if_neg hd10] at hk
  have hs2 := skip_whitespace_loop_inline w1 n 32 61 tail fn ln1 er op hw1'
    (by decide) (by decide) (Or.inr (by decide)) (by decide) (by decide) (by omega)
  rw [if_neg (by decide)] at hs2
  refine ⟨ln1, ?_⟩
  have e : G ++ ((c0 :: K') ++ w1 ++ 61 :: tail) = G ++ c0 :: (K' ++ w1 ++ 61 :: tail) := by
    simp
  have e2 : K' ++ w1 ++ 61 :: tail = K' ++ d :: R' := by
    rw [List.append_assoc, hd]
  conv_lhs => unfold read_line
  rw [e, skip_whitespace_eq_loop, hs1]
  simp only [h91, if_false]
  rw [e2, hk]
  simp only []
  rw [← hd, skip_whitespace_eq_loop, hs2]
  simp only [ne_eq, not_true_eq_false, if_false]

/-- The rest of `read_line` on a value `A` of at most 255 characters that the
line end `E` closes (a newline, or a comment with its newline): the value is
`A`, whatever `E` is. -/
theorem read_line_value_to_end (K A E R : List Int) (n0 : Nat) (fn : List Int) (ln : Nat)
    (er : List Diag) (op : Bool) (n : Nat) (hK : wf_key K = true) (hA : wf_raw_value A = true)
    (hE : EndsLine E R n0)
    (hn : 2 * (K ++ 61 :: (A ++ (E ++ R))).length + n0 + 5 ≤ n) :
    ∃ D', read_line n ⟨K ++ 61 :: (A ++ (E ++ R)), false, fn, ln, er, op⟩
      = some (some K, some A, D') := by
  obtain ⟨hlen, hA', hA0⟩ := wf_raw_value_cases A hA
  simp only [List.length_append, List.length_cons] at hn
  obtain ⟨ln1, h1⟩ := read_line_upto_eq Gap.nil K [] (A ++ (E ++ R)) fn ln er op n hK (by decide)
    (by simp only [List.length_nil]; omega)
  rw [List.nil_append, List.append_nil] at h1
  -- the whitespace after `=` and the value
  obtain ⟨ln2, hv⟩ : ∃ ln2,
      (match skip_whitespace n ⟨A ++ (E ++ R), false, fn, ln1, er, op⟩ false with
       | none => none
       | some (c2, D4) => read_rest_of_line n D4 c2)
        = some (A, ⟨R, false, fn, ln2, er, op⟩) := by
    cases A with
    | nil =>
      obtain ⟨ln2, h2⟩ := skip_whitespace_loop_to_end [] n 32 E R n0 fn ln1 er op (by simp)
        (by decide) (by decide) hE (by simp only [List.length_nil]; omega)
      refine ⟨ln2, ?_⟩
      rw [List.nil_append] at h2 ⊢
      rw [skip_whitespace_eq_loop, h2]
      simp only []
      obtain ⟨j, rfl⟩ : ∃ j, n = j + 1 := ⟨n - 1, by omega⟩
      unfold read_rest_of_line
      rw [read_rest_of_line_loop_succ, if_neg (by simp)]
      rfl
    | cons a A' =>
      have ha := hA' a (List.mem_cons_self _ _)
      have has := hA0 a A' rfl
      simp only [List.length_cons] at hn hlen
      have h2 := skip_whitespace_loop_inline [] n 32 a (A' ++ (E ++ R)) fn ln1 er op (by simp)
        (by decide) (by decide) (Or.inr has) ha.2.1 ha.2.2.1
        (by simp only [List.length_nil]; omega)
      rw [List.nil_append, if_neg ha.1] at h2
      obtain ⟨ln2, h3⟩ := read_rest_of_line_loop_to_end A' n [] a E R n0 fn ln1 er op ha.1
        (fun y hy => ⟨(hA' y (List.mem_cons_of_mem _ hy)).1,
          (hA' y (List.mem_cons_of_mem _ hy)).2.1, (hA' y (List.mem_cons_of_mem _ hy)).2.2.1⟩)
        (by simp only [List.length_nil]; omega) hE (by omega)
      refine ⟨ln2, ?_⟩
      rw [List.cons_append, skip_whitespace_eq_loop, h2]
      simp only []
      unfold read_rest_of_line
      rw [h3]
      simp only [List.nil_append]
      rw [strdup_eq _ (fun y hy => (hA' y hy).2.2.2)]
  obtain ⟨c3, D6, h3, _⟩ := skip_whitespace_total ⟨R, false, fn, ln2, er, op⟩ n true
    (by simp only []; omega)
  refine ⟨ungetc c3 D6, ?_⟩
  rw [h1]
  cases hs : skip_whitespace n ⟨A ++ (E ++ R), false, fn, ln1, er, op⟩ false with
  | none => rw [hs] at hv; cases hv
  | some r =>
    obtain ⟨c2, D4⟩ := r
    rw [hs] at hv
    simp only [] at hv ⊢
    rw [hv]
    simp only []
    rw [h3]

/-- C18: an unescaped `#` inside a value ends the value. On `K=A#B` newline `R`
(`K` a key, `A` a string of at most 255 characters without newline, `#` or
backslash that does not start with whitespace, `B` without newline) one call of
`read_line` returns the pair `(K, A)`, the same pair as on `K=A` newline `R`:
nothing from the `#` to the end of the line is in the value. -/
theorem read_line_hash_ends_value (K A B R : List Int) (fn : List Int) (ln : Nat)
    (er : List Diag) (op : Bool) (n : Nat) (hK : wf_key K = true) (hA : wf_raw_value A = true)
    (hB : 10 ∉ B)
    (hn : 2 * (K ++ 61 :: (A ++ 35 :: (B ++ 10 :: R))).length + 2 * B.length + 9 ≤ n) :
    (∃ D', read_line n ⟨K ++ 61 :: (A ++ 35 :: (B ++ 10 :: R)), false, fn, ln, er, op⟩
        = some (some K, some A, D')) ∧
    (∃ D', read_line n ⟨K ++ 61 :: (A ++ 10 :: R), false, fn, ln, er, op⟩
        = some (some K, some A, D')) := by
  simp only [List.length_append, List.length_cons] at hn
  constructor
  · have h := read_line_value_to_end K A (35 :: B ++ [10]) R (2 * B.length + 4) fn ln er op n hK hA
      (endsLine_comment B R hB)
      (by simp only [List.length_append, List.length_cons, List.length_nil]; omega)
    have e : A ++ ((35 :: B ++ [10]) ++ R) = A ++ 35 :: (B ++ 10 :: R) := by simp
    rw [e] at h
    exact h
  · have h := read_line_value_to_end K A [10] R 1 fn ln er op n hK hA (endsLine_newline R)
      (by simp only [List.length_append, List.length_cons, List.length_nil]; omega)
    have e : A ++ ([10] ++ R) = A ++ 10 :: R := by simp
    rw [e] at h
    exact h

theorem read_line_hash_ends_value_witness :
    (∃ D', read_line 200 ⟨cstr "Exec" ++ 61 :: (cstr "foo  " ++ 35 :: (cstr " # x" ++ 10 ::
        cstr "Name=y\n")), false, [], 1, [], true⟩
        = some (some (cstr "Exec"), some (cstr "foo  "), D')) ∧
    (∃ D', read_line 200 ⟨cstr "Exec" ++ 61 :: (cstr "foo  " ++ 10 :: cstr "Name=y\n"),
        false, [], 1, [], true⟩
        = some (some (cstr "Exec"), some (cstr "foo  "), D')) :=
  read_line_hash_ends_value (cstr "Exec") (cstr "foo  ") (cstr " # x") (cstr "Name=y\n") [] 1 []
    true
    200 (by decide) (by decide) (by decide) (by decide)

/-! ## A value longer than the buffer -/

/-- The loop of `read_rest_of_line` on a line longer than the buffer: once
`c0 :: V` has filled the 256 places, the rest `T` of the line and its newline
are discarded by `skip_to_next_line`. -/
theorem read_rest_of_line_loop_cap (V : List Int) : ∀ (n : Nat) (acc : List Int) (c0 : Int)
    (T R : List Int) (fn : List Int) (ln : Nat) (er : List Diag) (op : Bool),
    c0 ≠ 10 → (∀ x ∈ V, x ≠ 10 ∧ x ≠ 35 ∧ x ≠ 92) → acc.length + V.length + 1 = 256 →
    10 ∉ T → V.length + 2 * T.length + 4 ≤ n →
    ∃ ln', read_rest_of_line_loop n acc c0 ⟨V ++ (T ++ 10 :: R), false, fn, ln, er, op⟩
      = some (acc ++ c0 :: V, ⟨R, false, fn, ln', er, op⟩) := by
  induction V with
  | nil =>
    intro n acc c0 T R fn ln er op h0 _ hlen hT hn
    obtain ⟨j, rfl⟩ : ∃ j, n = j + 1 := ⟨n - 1, by omega⟩
    simp only [List.length_nil] at hlen hn
    obtain ⟨ln', h, _⟩ := skip_to_next_line_loop_line T.length T R (le_refl _) hT j 0 fn ln er op
      (by decide) (by omega)
    refine ⟨ln', ?_⟩
    rw [read_rest_of_line_loop_succ, if_pos ⟨by omega, h0, rfl⟩,
      if_pos (by simp only [List.length_append, List.length_singleton]; omega),
      List.nil_append, skip_to_next_line_eq_loop j 0 _ (by decide) rfl, h]
    rfl
  | cons x V IH =>
    intro n acc c0 T R fn ln er op h0 hV hlen hT hn
    simp only [List.length_cons] at hn hlen
    obtain ⟨j, rfl⟩ : ∃ j, n = j + 2 := ⟨n - 2, by omega⟩
    have hx := hV x (List.mem_cons_self _ _)
    obtain ⟨ln', h⟩ := IH (j + 1) (acc ++ [c0]) x T R fn ln er op hx.1
      (fun y hy => hV y (List.mem_cons_of_mem _ hy))
      (by simp only [List.length_append, List.length_singleton]; omega) hT (by omega)
    refine ⟨ln', ?_⟩
    rw [read_rest_of_line_loop_succ, if_pos ⟨by omega, h0, rfl⟩,
      if_neg (by simp only [List.length_append, List.length_singleton]; omega),
      List.cons_append, next_char_plain _ x _ false fn ln er op hx.1 hx.2.1 hx.2.2, Option.bind,
      h]
    simp

end Wm
